import Mathlib

/-!
# Verification of the word-class optimizer (`wordclasses/optimizer.py`)

This file gives a shallow embedding of the count data model, the move
operation, the likelihood evaluator and the construction code of the
word-class optimizer, and proves (or refutes) the specified properties.

Conventions of the embedding:

* NumPy `int64` tables are modelled as `ℤ`-valued tables.  All counts
  appearing in the program are bounded by the corpus size, far below
  `2^63`, so 64-bit wrap-around is irrelevant to the claims and is not
  modelled.
* Dense arrays indexed by word ids in `[0, V)` and class ids in `[0, C)`
  are modelled as functions on `Fin V` and `Fin C`.
* Floating point log-likelihoods are modelled over `ℝ`.  The one place
  where IEEE semantics differ observably from `ℝ` (a `0 * log 0 = NaN`
  produced by the unguarded class-count terms of `_evaluate_move`) is
  modelled explicitly with `WithBot ℝ`, `⊥` playing the role of NaN.
-/

namespace WordClasses

/-- The table state owned by `Optimizer` (`optimizer.py`).  `V` is
`vocabulary_size`, `C` is `num_classes` (which in the source already
includes the three reserved classes, line 73).  Fields are the arrays
created in `_read_word_statistics` (lines 51-54), `_freq_init_classes`
(lines 75-76) and `_compute_class_statistics` (lines 99-108). -/
@[ext]
structure CountStore (V C : ℕ) where
  word_counts : Fin V → ℤ
  ww_counts : Fin V → Fin V → ℤ
  word_to_class : Fin V → Fin C
  class_to_words : Fin C → Finset (Fin V)
  class_counts : Fin C → ℤ
  cc_counts : Fin C → Fin C → ℤ
  cw_counts : Fin C → Fin V → ℤ
  wc_counts : Fin V → Fin C → ℤ
deriving DecidableEq

variable {V C : ℕ}

/-- `_compute_class_statistics`, lines 110-111: `class_counts[class_id] +=
word_counts[word_id]` for every word; i.e. the aggregate of `word_counts`
over the words of each class. -/
def computeClassCounts (s : CountStore V C) (k : Fin C) : ℤ :=
  ∑ i : Fin V, if s.word_to_class i = k then s.word_counts i else 0

/-- `_compute_class_statistics`, line 115: aggregate of `ww_counts` with
both sides re-keyed to classes. -/
def computeCcCounts (s : CountStore V C) (a b : Fin C) : ℤ :=
  ∑ i : Fin V, ∑ j : Fin V,
    if s.word_to_class i = a ∧ s.word_to_class j = b then s.ww_counts i j else 0

/-- `_compute_class_statistics`, line 116: aggregate of `ww_counts` with
the left side re-keyed to its class. -/
def computeCwCounts (s : CountStore V C) (a : Fin C) (j : Fin V) : ℤ :=
  ∑ i : Fin V, if s.word_to_class i = a then s.ww_counts i j else 0

/-- `_compute_class_statistics`, line 117: aggregate of `ww_counts` with
the right side re-keyed to its class. -/
def computeWcCounts (s : CountStore V C) (i : Fin V) (b : Fin C) : ℤ :=
  ∑ j : Fin V, if s.word_to_class j = b then s.ww_counts i j else 0

/-- The §3 derived-table invariants: the four derived count tables equal
the re-aggregation of `word_counts`/`ww_counts` under the current
`word_to_class` (as computed by `_compute_class_statistics`), and
`class_to_words` is the exact inverse of `word_to_class`. -/
def Consistent (s : CountStore V C) : Prop :=
  (∀ k, s.class_counts k = computeClassCounts s k) ∧
  (∀ a b, s.cc_counts a b = computeCcCounts s a b) ∧
  (∀ a j, s.cw_counts a j = computeCwCounts s a j) ∧
  (∀ i b, s.wc_counts i b = computeWcCounts s i b) ∧
  (∀ k i, i ∈ s.class_to_words k ↔ s.word_to_class i = k)

instance (s : CountStore V C) : Decidable (Consistent s) := by
  unfold Consistent; infer_instance

/-- The raw word-level statistics are counts, hence non-negative.  (True
of every state `_read_word_statistics` can produce.) -/
def NonnegData (s : CountStore V C) : Prop :=
  (∀ i, 0 ≤ s.word_counts i) ∧ (∀ i j, 0 ≤ s.ww_counts i j)

instance (s : CountStore V C) : Decidable (NonnegData s) := by
  unfold NonnegData; infer_instance

/-- The bigrams `word → y` for `y ≠ word` currently in class `b`: the
quantity `_move` (lines 221-228) removes from `cc_counts[old_class, b]`
and adds to `cc_counts[new_class, b]` while looping over
`ww_counts[word_id, :]` and skipping `right_word_id == word_id`. -/
def rightSum (s : CountStore V C) (w : Fin V) (b : Fin C) : ℤ :=
  ∑ r ∈ Finset.univ.erase w, if s.word_to_class r = b then s.ww_counts w r else 0

/-- The bigrams `y → word` for `y ≠ word` currently in class `a`: the
quantity `_move` (lines 230-237) removes from `cc_counts[a, old_class]`
and adds to `cc_counts[a, new_class]` while looping over
`ww_counts[:, word_id]` and skipping `left_word_id == word_id`. -/
def leftSum (s : CountStore V C) (w : Fin V) (a : Fin C) : ℤ :=
  ∑ l ∈ Finset.univ.erase w, if s.word_to_class l = a then s.ww_counts l w else 0

/-- `_move` (lines 212-249).  The source performs in-place `+=`/`-=`
updates while looping over the other words; all reads during the loops
are of the unmodified `ww_counts`/`word_to_class`, so the net effect on
each cell is the sum of the increments it receives, which is what the
closed-form updates below record:

* `class_counts` (lines 217-219): `word_counts[word]` moves from the old
  class to the new one.
* `cc_counts`: row `old`/`new` changes by the bigrams `word → (words of b)`
  (lines 225-226, `rightSum`), column `old`/`new` by the bigrams
  `(words of a) → word` (lines 234-235, `leftSum`), and the self-bigram
  `ww_counts[word, word]` moves from the `(old, old)` diagonal cell to
  `(new, new)` (lines 239-241).
* `cw_counts` row `old`/`new` changes by `ww_counts[word, r]` for every
  `r` (`r ≠ word` from lines 227-228, `r = word` from lines 242-243).
* `wc_counts` column `old`/`new` changes by `ww_counts[l, word]` for
  every `l` (lines 236-237 and 244-245).
* `class_to_words` (lines 247-248): `remove` from the old class's set,
  then `add` to the new class's set, in that order.
* `word_to_class[word] = new_class` (line 249). -/
def move (s : CountStore V C) (w : Fin V) (k : Fin C) : CountStore V C :=
  let o := s.word_to_class w
  let v := s.word_counts w
  let selfbi := s.ww_counts w w
  let ctw1 := Function.update s.class_to_words o ((s.class_to_words o).erase w)
  { word_counts := s.word_counts
    ww_counts := s.ww_counts
    word_to_class := Function.update s.word_to_class w k
    class_to_words := Function.update ctw1 k (insert w (ctw1 k))
    class_counts := fun c =>
      s.class_counts c - (if c = o then v else 0) + (if c = k then v else 0)
    cc_counts := fun a b =>
      s.cc_counts a b
        - (if a = o then rightSum s w b else 0) + (if a = k then rightSum s w b else 0)
        - (if b = o then leftSum s w a else 0) + (if b = k then leftSum s w a else 0)
        - (if a = o ∧ b = o then selfbi else 0) + (if a = k ∧ b = k then selfbi else 0)
    cw_counts := fun a r =>
      s.cw_counts a r - (if a = o then s.ww_counts w r else 0)
        + (if a = k then s.ww_counts w r else 0)
    wc_counts := fun l b =>
      s.wc_counts l b - (if b = o then s.ww_counts l w else 0)
        + (if b = k then s.ww_counts l w else 0) }

/-! ## Likelihood evaluator -/

/-- One cell's contribution `n * ln n` to `log_likelihood` (lines 43-45).
The source computes `numpy.ma.log(table) * table` and sums; `ma.log`
masks the cells where the log is invalid (`n ≤ 0`), and masked cells
contribute `0` to `.sum()`. -/
noncomputable def mllTerm (n : ℤ) : ℝ :=
  if n ≤ 0 then 0 else (n : ℝ) * Real.log n

/-- `log_likelihood` (lines 38-45): `Σ cc·ln cc + Σ word_counts·ln
word_counts − 2·Σ class_counts·ln class_counts`, zero counts masked. -/
noncomputable def log_likelihood (s : CountStore V C) : ℝ :=
  (∑ a : Fin C, ∑ b : Fin C, mllTerm (s.cc_counts a b))
    + (∑ i : Fin V, mllTerm (s.word_counts i))
    - 2 * ∑ k : Fin C, mllTerm (s.class_counts k)

/-- `_ll_change` (lines 119-125): `- old*ln old + new*ln new`, each term
guarded by a `!= 0` test. -/
noncomputable def ll_change (oldCount newCount : ℤ) : ℝ :=
  (if oldCount = 0 then 0 else -((oldCount : ℝ) * Real.log oldCount))
    + (if newCount = 0 then 0 else (newCount : ℝ) * Real.log newCount)

/-- `_evaluate_move` (lines 127-210), real-valued semantics.

Two remarks on fidelity.  First, lines 146 and 162 of the source read
`for iter_class_id, iter_wc_count in self.wc_counts[word_id,:]` (and the
same over `self.cw_counts[:,word_id]`): iterating a 1-D NumPy integer
array yields `int64` scalars, and destructuring a scalar into a pair
raises `TypeError`, so the function as written never gets past line 146
(see `evaluate_move_run` below).  The loop-variable names and the
parallel loops of `_move` (lines 221, 230, written with `enumerate`)
show the intended iteration, which is what this definition models: the
loop index `X` ranges over the classes, `iter_wc_count` is
`wc_counts[word, X]` and `iter_cw_count` is `cw_counts[X, word]`, and
the iterations with `X` equal to the old or the new class are skipped
(lines 147-150, 163-166).

Second, lines 135-144 compute `2*old_count*numpy.log(old_count)` for the
old and new `class_counts` without the zero guard of `_ll_change`.  Over
`ℝ` this is harmless because mathlib's `Real.log 0 = 0`; in IEEE floats
`numpy.log(0) = -inf` and `0 * -inf = NaN`.  This definition gives the
real value; `evaluateMoveFloat` below models the float semantics. -/
noncomputable def evaluate_move (s : CountStore V C) (w : Fin V) (k : Fin C) : ℝ :=
  let o := s.word_to_class w
  2 * (s.class_counts o : ℝ) * Real.log (s.class_counts o)
    - 2 * ((s.class_counts o - s.word_counts w : ℤ) : ℝ)
        * Real.log ((s.class_counts o - s.word_counts w : ℤ) : ℝ)
    + 2 * (s.class_counts k : ℝ) * Real.log (s.class_counts k)
    - 2 * ((s.class_counts k + s.word_counts w : ℤ) : ℝ)
        * Real.log ((s.class_counts k + s.word_counts w : ℤ) : ℝ)
    + (∑ X : Fin C, if X ≠ o ∧ X ≠ k then
        ll_change (s.cc_counts o X) (s.cc_counts o X - s.wc_counts w X)
          + ll_change (s.cc_counts k X) (s.cc_counts k X + s.wc_counts w X)
      else 0)
    + (∑ X : Fin C, if X ≠ o ∧ X ≠ k then
        ll_change (s.cc_counts X o) (s.cc_counts X o - s.cw_counts X w)
          + ll_change (s.cc_counts X k) (s.cc_counts X k + s.cw_counts X w)
      else 0)
    + ll_change (s.cc_counts o k)
        (s.cc_counts o k - s.wc_counts w k + s.cw_counts o w - s.ww_counts w w)
    + ll_change (s.cc_counts k o)
        (s.cc_counts k o - s.cw_counts k w + s.wc_counts w o - s.ww_counts w w)
    + ll_change (s.cc_counts o o)
        (s.cc_counts o o - s.wc_counts w o - s.cw_counts o w + s.ww_counts w w)
    + ll_change (s.cc_counts k k)
        (s.cc_counts k k + s.wc_counts w k + s.cw_counts k w + s.ww_counts w w)

/-- What a call to `_evaluate_move` actually does at runtime.  Lines
132-144 run (pure float arithmetic, no exception), and then line 146
`for iter_class_id, iter_wc_count in self.wc_counts[word_id,:]` raises
`TypeError` on its first element, because a 1-D NumPy `int64` row yields
scalars and a scalar does not unpack into two names.  The row has `C`
elements, so the loop body is reached (and the error raised) exactly
when `C > 0`; in every state the constructor can build, `C =
num_classes + 3 ≥ 3`.  The `ok` branch (never taken when `C > 0`) holds
the value accumulated before the loop. -/
noncomputable def evaluate_move_run (s : CountStore V C) (w : Fin V) (k : Fin C) :
    Except String ℝ :=
  let o := s.word_to_class w
  if 0 < C then
    Except.error "TypeError: cannot unpack non-iterable numpy.int64 object"
  else
    Except.ok (2 * (s.class_counts o : ℝ) * Real.log (s.class_counts o)
      - 2 * ((s.class_counts o - s.word_counts w : ℤ) : ℝ)
          * Real.log ((s.class_counts o - s.word_counts w : ℤ) : ℝ)
      + 2 * (s.class_counts k : ℝ) * Real.log (s.class_counts k)
      - 2 * ((s.class_counts k + s.word_counts w : ℤ) : ℝ)
          * Real.log ((s.class_counts k + s.word_counts w : ℤ) : ℝ))

/-! ### Float (NaN-aware) semantics of `_evaluate_move`

`WithBot ℝ` models an IEEE double that is either NaN (`⊥`) or an exact
real; `WithBot` addition makes `⊥` absorbing, matching NaN propagation
through sums.  This is faithful for this function because the only
non-finite intermediate values are `numpy.log` of a non-positive count
(`-inf` for `0`, NaN for negatives), and each such log is immediately
multiplied by its own (non-positive) count, giving NaN (`0 * -inf` or
`c * NaN`); so "the term is NaN" coincides with "the count is ≤ 0". -/

/-- The float value of a term `coeff * c * numpy.log(c)` (`coeff` a real
constant): an exact real if `0 < c`, NaN otherwise. -/
noncomputable def floatLogTerm (coeff : ℝ) (c : ℤ) : WithBot ℝ :=
  if 0 < c then ((coeff * (c : ℝ) * Real.log c : ℝ) : WithBot ℝ) else ⊥

/-- The float value computed by `_ll_change` (lines 119-125): each
addend is skipped (contributes an exact `0`) when its count is `0`, and
is NaN only for a negative count (`numpy.log` of a negative). -/
noncomputable def floatLlChange (oldCount newCount : ℤ) : WithBot ℝ :=
  (if oldCount = 0 then ((0 : ℝ) : WithBot ℝ) else floatLogTerm (-1) oldCount)
    + (if newCount = 0 then ((0 : ℝ) : WithBot ℝ) else floatLogTerm 1 newCount)

/-- `_evaluate_move` under float semantics (assuming the intended
iteration of lines 146-176, as in `evaluate_move`): the four class-count
terms of lines 135-144 are unguarded (`floatLogTerm`), every other term
goes through `_ll_change` (`floatLlChange`). -/
noncomputable def evaluateMoveFloat (s : CountStore V C) (w : Fin V) (k : Fin C) :
    WithBot ℝ :=
  let o := s.word_to_class w
  floatLogTerm 2 (s.class_counts o)
    + floatLogTerm (-2) (s.class_counts o - s.word_counts w)
    + floatLogTerm 2 (s.class_counts k)
    + floatLogTerm (-2) (s.class_counts k + s.word_counts w)
    + (∑ X : Fin C, if X ≠ o ∧ X ≠ k then
        floatLlChange (s.cc_counts o X) (s.cc_counts o X - s.wc_counts w X)
          + floatLlChange (s.cc_counts k X) (s.cc_counts k X + s.wc_counts w X)
      else ((0 : ℝ) : WithBot ℝ))
    + (∑ X : Fin C, if X ≠ o ∧ X ≠ k then
        floatLlChange (s.cc_counts X o) (s.cc_counts X o - s.cw_counts X w)
          + floatLlChange (s.cc_counts X k) (s.cc_counts X k + s.cw_counts X w)
      else ((0 : ℝ) : WithBot ℝ))
    + floatLlChange (s.cc_counts o k)
        (s.cc_counts o k - s.wc_counts w k + s.cw_counts o w - s.ww_counts w w)
    + floatLlChange (s.cc_counts k o)
        (s.cc_counts k o - s.cw_counts k w + s.wc_counts w o - s.ww_counts w w)
    + floatLlChange (s.cc_counts o o)
        (s.cc_counts o o - s.wc_counts w o - s.cw_counts o w + s.ww_counts w w)
    + floatLlChange (s.cc_counts k k)
        (s.cc_counts k k + s.wc_counts w k + s.cw_counts k w + s.ww_counts w w)

/-- The four `class_counts` values whose logs lines 135-144 take without
a zero guard.  The float result of `_evaluate_move` is NaN exactly when
one of them is zero (`evaluateMoveFloat_eq`). -/
def nanCondition (s : CountStore V C) (w : Fin V) (k : Fin C) : Prop :=
  s.class_counts (s.word_to_class w) = 0 ∨
  s.class_counts (s.word_to_class w) - s.word_counts w = 0 ∨
  s.class_counts k = 0 ∨
  s.class_counts k + s.word_counts w = 0

instance (s : CountStore V C) (w : Fin V) (k : Fin C) :
    Decidable (nanCondition s w k) := by
  unfold nanCondition; infer_instance

/-! ## Construction (`__init__`, `_read_word_statistics`, `_freq_init_classes`)

The corpus is modelled as a list of whitespace-tokenized lines
(`List (List String)`; tokenization itself is I/O glue outside the
core).  The source stores the vocabulary as a Python `set` and assigns
dense ids by enumerating it (line 30); the enumeration order of a hash
set is implementation-defined, so the embedding takes the id order as a
parameter `vocab : List String` (the word with id `i` is `vocab[i]`) and
the construction theorems quantify over every order whose underlying set
is the one built on lines 17-26. -/

/-- The vocabulary set built on lines 17-20 (no restriction file):
`{'<s>', '</s>', '<UNK>'}` updated with every token of the corpus. -/
def vocabSetOf (corpus : List (List String)) : Finset String :=
  {"<s>", "</s>", "<UNK>"} ∪ corpus.flatten.toFinset

/-- The dense id of a word: its position in the id order. -/
def wordId (vocab : List String) (t : String) : ℕ := vocab.indexOf t

/-- Lines 57-63: a line becomes `<s>`, its tokens (unknown tokens
replaced by `<UNK>`), `</s>`, as a list of word ids. -/
def mkSentence (vocab : List String) (line : List String) : List ℕ :=
  wordId vocab "<s>" ::
    (line.map fun t => if t ∈ vocab then wordId vocab t else wordId vocab "<UNK>")
    ++ [wordId vocab "</s>"]

/-- All sentence tokens of the corpus (the ids the loop of lines 64-65
increments `word_counts` over, concatenated across lines). -/
def corpusTokens (vocab : List String) (corpus : List (List String)) : List ℕ :=
  (corpus.map (mkSentence vocab)).flatten

/-- All adjacent pairs of the corpus (the pairs the loop of lines 66-67
increments `ww_counts` over; `zip(sentence[:-1], sentence[1:])` is the
zip of a list with its tail). -/
def corpusPairs (vocab : List String) (corpus : List (List String)) : List (ℕ × ℕ) :=
  (corpus.map fun line => let s := mkSentence vocab line; s.zip s.tail).flatten

/-- `word_counts` as built by `_read_word_statistics`: one increment per
occurrence of the id among the sentence tokens. -/
def wordCountsOf (vocab : List String) (corpus : List (List String))
    (i : Fin vocab.length) : ℤ :=
  ((corpusTokens vocab corpus).count i.val : ℤ)

/-- `ww_counts` as built by `_read_word_statistics`: one increment per
occurrence of the pair among the adjacent pairs. -/
def wwCountsOf (vocab : List String) (corpus : List (List String))
    (i j : Fin vocab.length) : ℤ :=
  ((corpusPairs vocab corpus).count (i.val, j.val) : ℤ)

/-- The unigram count of a word given by name (position-independent view
of `wordCountsOf`). -/
def wordCountOfTok (vocab : List String) (corpus : List (List String))
    (t : String) : ℤ :=
  ((corpusTokens vocab corpus).count (wordId vocab t) : ℤ)

/-- The bigram count of a pair of words given by name. -/
def wwCountOfToks (vocab : List String) (corpus : List (List String))
    (t u : String) : ℤ :=
  ((corpusPairs vocab corpus).count (wordId vocab t, wordId vocab u) : ℤ)

/-- The total token count `N` (including the injected `<s>`/`</s>` and
the `<UNK>` substitutions): every token of every bracketed sentence. -/
def totalTokens (vocab : List String) (corpus : List (List String)) : ℕ :=
  (corpusTokens vocab corpus).length

/-- Line 73: `self.num_classes = num_classes + 3`. -/
def numClassesTotal (numClasses : ℤ) : ℤ := numClasses + 3

/-- Stable insertion of `x` into `l`: `x` goes before the first element
whose key is not strictly below its own (`stableSortBy` inserts earlier
list elements later, so this keeps earlier elements first on ties). -/
def insertLe (key : ℕ → ℤ) (x : ℕ) : List ℕ → List ℕ
  | [] => [x]
  | y :: ys => if key y < key x then y :: insertLe key x ys else x :: y :: ys

/-- Stable sort by a key, as a structurally recursive insertion sort.
Line 86 sorts `enumerate(self.word_counts)` with `sorted`, which is a
stable sort; a stable sort's output is uniquely determined by the key,
so any stable implementation is extensionally the same function. -/
def stableSortBy (key : ℕ → ℤ) : List ℕ → List ℕ
  | [] => []
  | x :: xs => insertLe key x (stableSortBy key xs)

/-- Line 86: all word ids in ascending order of `word_counts`, ties kept
in id order (Python's `sorted` is stable and `enumerate` yields ids in
ascending order). -/
def sortedWordIds (vocab : List String) (corpus : List (List String)) : List ℕ :=
  stableSortBy (fun i => ((corpusTokens vocab corpus).count i : ℤ))
    (List.range vocab.length)

/-- The ids of `<s>`, `</s>`, `<UNK>`, pre-assigned to classes 0, 1, 2
on lines 78-83; the loop of lines 86-93 skips them (their
`word_to_class` entry is not `None`). -/
def specialIds (vocab : List String) : List ℕ :=
  [wordId vocab "<s>", wordId vocab "</s>", wordId vocab "<UNK>"]

/-- The class-assignment loop of lines 85-93 on the remaining words, as
`(word id, class id)` pairs.  `numCl` is `self.num_classes`.  Each step
assigns the running `class_id` and then advances it by
`class_id = min((class_id + 1) % self.num_classes, 3)` — the expression
exactly as written on line 93.  Accessing `self.class_to_words[class_id]`
(line 92) raises `IndexError` when `class_id ≥ numCl`, which the
`Except` captures.  (Line 93 also divides by `numCl`; `numCl = 0` is
unreachable there because `class_id = 3 ≥ numCl` fails first.) -/
def assignRest (numCl : ℕ) : List ℕ → ℕ → Except String (List (ℕ × ℕ))
  | [], _ => Except.ok []
  | w :: ws, cid =>
    if cid < numCl then
      match assignRest numCl ws (min ((cid + 1) % numCl) 3) with
      | Except.ok rest => Except.ok ((w, cid) :: rest)
      | Except.error e => Except.error e
    else Except.error "IndexError: list index out of range"

/-- `_freq_init_classes` (lines 69-93) as the list of `(word id, class
id)` assignments it makes, or the uncaught exception it raises.  Lines
78-83 index `class_to_words[0]`, `[1]`, `[2]`, raising `IndexError`
when `num_classes + 3 < 3` (only possible for negative `num_classes`;
`range` of a negative number is empty, modelled by `Int.toNat`); then
the loop of lines 85-93 runs over the non-special words in ascending
count order. -/
def freqInit (vocab : List String) (corpus : List (List String)) (numClasses : ℤ) :
    Except String (List (ℕ × ℕ)) :=
  let numCl := (numClassesTotal numClasses).toNat
  if numCl < 3 then Except.error "IndexError: list index out of range"
  else
    match assignRest numCl
        ((sortedWordIds vocab corpus).filter fun w => w ∉ specialIds vocab) 3 with
    | Except.ok rest =>
        Except.ok ([(wordId vocab "<s>", 0), (wordId vocab "</s>", 1),
          (wordId vocab "<UNK>", 2)] ++ rest)
    | Except.error e => Except.error e

/-- The `Optimizer` state right after construction: the word statistics
of `_read_word_statistics`, an initial class assignment `w2c`, the
inverse map as built alongside it, and the derived tables computed by
the single full aggregation pass of `_compute_class_statistics`.  The
assignment is a parameter: `_freq_init_classes` produces one particular
assignment (see `freqInit`), and the construction-time properties below
hold for every assignment. -/
def initialState (vocab : List String) (corpus : List (List String)) {C : ℕ}
    (w2c : Fin vocab.length → Fin C) : CountStore vocab.length C :=
  let raw : CountStore vocab.length C :=
    { word_counts := wordCountsOf vocab corpus
      ww_counts := wwCountsOf vocab corpus
      word_to_class := w2c
      class_to_words := fun k => Finset.univ.filter fun i => w2c i = k
      class_counts := fun _ => 0
      cc_counts := fun _ _ => 0
      cw_counts := fun _ _ => 0
      wc_counts := fun _ _ => 0 }
  { raw with
    class_counts := computeClassCounts raw
    cc_counts := computeCcCounts raw
    cw_counts := computeCwCounts raw
    wc_counts := computeWcCounts raw }

/-- States reachable from `s0` by a sequence of `_move` calls. -/
inductive ReachableFrom (s0 : CountStore V C) : CountStore V C → Prop
  | refl : ReachableFrom s0 s0
  | step {s : CountStore V C} (w : Fin V) (k : Fin C) :
      ReachableFrom s0 s → ReachableFrom s0 (move s w k)

/-! ## Concrete instances used by the witnesses and counterexamples -/

/-- The spec's concrete scenario: corpus `["a b a", "b a b"]`. -/
def tinyCorpus : List (List String) := [["a", "b", "a"], ["b", "a", "b"]]

/-- One id order for the tiny corpus's vocabulary (the source's order is
the Python set enumeration order; the theorems below quantify over all
orders, this one instantiates them). -/
def tinyVocab : List String := ["<s>", "</s>", "<UNK>", "a", "b"]

/-- An initial class assignment for the tiny corpus with
`num_classes = 1` (4 classes in all): specials pinned to 0, 1, 2 and
both real words in class 3. -/
def w2cTiny : Fin tinyVocab.length → Fin 4 := ![0, 1, 2, 3, 3]

/-- The constructed count store for the tiny corpus. -/
def exTiny : CountStore tinyVocab.length 4 :=
  initialState tinyVocab tinyCorpus w2cTiny

/-- A corpus whose two real words have distinct counts (`a`: 1, `b`: 2),
so the ascending-count order of the non-reserved words is `a` then `b`
independently of tie-breaking. -/
def skewCorpus : List (List String) := [["a", "b", "b"]]

/-- A small consistent state (5 words, 4 classes, all bigram counts
zero, `a` and `b` sharing class 3) on which `_evaluate_move` of a word
to its own class is nonzero. -/
def exSelf : CountStore 5 4 :=
  { word_counts := ![1, 1, 0, 1, 1]
    ww_counts := fun _ _ => 0
    word_to_class := ![0, 1, 2, 3, 3]
    class_to_words := ![{0}, {1}, {2}, {3, 4}]
    class_counts := ![1, 1, 0, 2]
    cc_counts := fun _ _ => 0
    cw_counts := fun _ _ => 0
    wc_counts := fun _ _ => 0 }

/-! ## Lemmas: the move operation

All statements below are theorems about the embedded program. -/

/-! ### Unfolding lemmas for `move` -/

@[simp] lemma move_word_counts (s : CountStore V C) (w : Fin V) (k : Fin C) :
    (move s w k).word_counts = s.word_counts := rfl

@[simp] lemma move_ww_counts (s : CountStore V C) (w : Fin V) (k : Fin C) :
    (move s w k).ww_counts = s.ww_counts := rfl

@[simp] lemma move_word_to_class (s : CountStore V C) (w : Fin V) (k : Fin C) :
    (move s w k).word_to_class = Function.update s.word_to_class w k := rfl

lemma move_class_counts (s : CountStore V C) (w : Fin V) (k : Fin C) (c : Fin C) :
    (move s w k).class_counts c
      = s.class_counts c - (if c = s.word_to_class w then s.word_counts w else 0)
        + (if c = k then s.word_counts w else 0) := rfl

lemma move_cc_counts (s : CountStore V C) (w : Fin V) (k : Fin C) (a b : Fin C) :
    (move s w k).cc_counts a b
      = s.cc_counts a b
        - (if a = s.word_to_class w then rightSum s w b else 0)
        + (if a = k then rightSum s w b else 0)
        - (if b = s.word_to_class w then leftSum s w a else 0)
        + (if b = k then leftSum s w a else 0)
        - (if a = s.word_to_class w ∧ b = s.word_to_class w then s.ww_counts w w else 0)
        + (if a = k ∧ b = k then s.ww_counts w w else 0) := rfl

lemma move_cw_counts (s : CountStore V C) (w : Fin V) (k : Fin C) (a : Fin C) (r : Fin V) :
    (move s w k).cw_counts a r
      = s.cw_counts a r - (if a = s.word_to_class w then s.ww_counts w r else 0)
        + (if a = k then s.ww_counts w r else 0) := rfl

lemma move_wc_counts (s : CountStore V C) (w : Fin V) (k : Fin C) (l : Fin V) (b : Fin C) :
    (move s w k).wc_counts l b
      = s.wc_counts l b - (if b = s.word_to_class w then s.ww_counts l w else 0)
        + (if b = k then s.ww_counts l w else 0) := rfl

lemma move_class_to_words (s : CountStore V C) (w : Fin V) (k : Fin C) (c : Fin C) :
    (move s w k).class_to_words c
      = (Function.update
          (Function.update s.class_to_words (s.word_to_class w)
            ((s.class_to_words (s.word_to_class w)).erase w))
          k (insert w
            ((Function.update s.class_to_words (s.word_to_class w)
              ((s.class_to_words (s.word_to_class w)).erase w)) k))) c := rfl

/-! ### Splitting sums at the moved word -/

lemma sum_split (w : Fin V) (g : Fin V → ℤ) :
    (∑ i : Fin V, g i) = g w + ∑ i ∈ Finset.univ.erase w, g i :=
  (Finset.add_sum_erase _ g (Finset.mem_univ w)).symm

lemma rightSum_move (s : CountStore V C) (w : Fin V) (k : Fin C) (b : Fin C) :
    rightSum (move s w k) w b = rightSum s w b := by
  unfold rightSum
  refine Finset.sum_congr rfl fun r hr => ?_
  rcases Finset.mem_erase.mp hr with ⟨hne, -⟩
  simp [Function.update_noteq hne]

lemma leftSum_move (s : CountStore V C) (w : Fin V) (k : Fin C) (a : Fin C) :
    leftSum (move s w k) w a = leftSum s w a := by
  unfold leftSum
  refine Finset.sum_congr rfl fun l hl => ?_
  rcases Finset.mem_erase.mp hl with ⟨hne, -⟩
  simp [Function.update_noteq hne]

lemma computeClassCounts_split (s : CountStore V C) (w : Fin V) (c : Fin C) :
    computeClassCounts s c
      = (if s.word_to_class w = c then s.word_counts w else 0)
        + ∑ i ∈ Finset.univ.erase w,
            (if s.word_to_class i = c then s.word_counts i else 0) := by
  unfold computeClassCounts
  exact sum_split w _

lemma computeCwCounts_split (s : CountStore V C) (w : Fin V) (a : Fin C) (r : Fin V) :
    computeCwCounts s a r
      = (if s.word_to_class w = a then s.ww_counts w r else 0)
        + ∑ i ∈ Finset.univ.erase w,
            (if s.word_to_class i = a then s.ww_counts i r else 0) := by
  unfold computeCwCounts
  exact sum_split w _

lemma computeWcCounts_split (s : CountStore V C) (w : Fin V) (l : Fin V) (b : Fin C) :
    computeWcCounts s l b
      = (if s.word_to_class w = b then s.ww_counts l w else 0)
        + ∑ j ∈ Finset.univ.erase w,
            (if s.word_to_class j = b then s.ww_counts l j else 0) := by
  unfold computeWcCounts
  exact sum_split w _

/-- `computeCcCounts` split into: the moved word's self-bigram, the
moved word's outgoing bigrams, its incoming bigrams, and the bigrams not
involving it. -/
lemma computeCcCounts_split (s : CountStore V C) (w : Fin V) (a b : Fin C) :
    computeCcCounts s a b
      = (if s.word_to_class w = a ∧ s.word_to_class w = b then s.ww_counts w w else 0)
        + (if s.word_to_class w = a then rightSum s w b else 0)
        + (if s.word_to_class w = b then leftSum s w a else 0)
        + ∑ i ∈ Finset.univ.erase w, ∑ j ∈ Finset.univ.erase w,
            (if s.word_to_class i = a ∧ s.word_to_class j = b then s.ww_counts i j else 0) := by
  unfold computeCcCounts
  rw [sum_split w]
  rw [sum_split w (fun j => if s.word_to_class w = a ∧ s.word_to_class j = b then
    s.ww_counts w j else 0)]
  have h1 : (∑ i ∈ Finset.univ.erase w, ∑ j : Fin V,
      (if s.word_to_class i = a ∧ s.word_to_class j = b then s.ww_counts i j else 0))
      = (∑ i ∈ Finset.univ.erase w,
          ((if s.word_to_class i = a ∧ s.word_to_class w = b then s.ww_counts i w else 0)
            + ∑ j ∈ Finset.univ.erase w,
              (if s.word_to_class i = a ∧ s.word_to_class j = b then s.ww_counts i j else 0))) :=
    Finset.sum_congr rfl fun i _ => sum_split w _
  rw [h1, Finset.sum_add_distrib]
  have h2 : (∑ j ∈ Finset.univ.erase w,
      (if s.word_to_class w = a ∧ s.word_to_class j = b then s.ww_counts w j else 0))
      = (if s.word_to_class w = a then rightSum s w b else 0) := by
    unfold rightSum
    by_cases ha : s.word_to_class w = a
    · simp only [ha, true_and, if_true]
    · simp [ha]
  have h3 : (∑ i ∈ Finset.univ.erase w,
      (if s.word_to_class i = a ∧ s.word_to_class w = b then s.ww_counts i w else 0))
      = (if s.word_to_class w = b then leftSum s w a else 0) := by
    unfold leftSum
    by_cases hb : s.word_to_class w = b
    · simp only [hb, and_true, if_true]
    · simp [hb]
  rw [h2, h3]
  ring

/-! ### The derived tables after a move equal the re-aggregation -/

lemma ite_flip {α : Type _} [DecidableEq α] (a b : α) (x : ℤ) :
    (if a = b then x else 0) = (if b = a then x else 0) := by
  rcases eq_or_ne a b with h | h
  · simp [h]
  · simp [h, h.symm]

lemma ite_flip2 {α β : Type _} [DecidableEq α] [DecidableEq β]
    (a b : α) (c d : β) (x : ℤ) :
    (if a = b ∧ c = d then x else 0) = (if b = a ∧ d = c then x else 0) := by
  have h : (a = b ∧ c = d) ↔ (b = a ∧ d = c) := by
    constructor <;> rintro ⟨rfl, rfl⟩ <;> exact ⟨rfl, rfl⟩
  rw [if_congr h rfl rfl]

lemma erase_sum_update (s : CountStore V C) (w : Fin V) (k : Fin C)
    (g : Fin V → Fin C → ℤ) (c : Fin C) :
    (∑ i ∈ Finset.univ.erase w,
        (if Function.update s.word_to_class w k i = c then g i c else 0))
      = ∑ i ∈ Finset.univ.erase w, (if s.word_to_class i = c then g i c else 0) := by
  refine Finset.sum_congr rfl fun i hi => ?_
  rcases Finset.mem_erase.mp hi with ⟨hne, -⟩
  rw [Function.update_noteq hne]

lemma computeClassCounts_move (s : CountStore V C) (w : Fin V) (k : Fin C) (c : Fin C) :
    computeClassCounts (move s w k) c
      = computeClassCounts s c
        - (if c = s.word_to_class w then s.word_counts w else 0)
        + (if c = k then s.word_counts w else 0) := by
  rw [computeClassCounts_split (move s w k) w c, computeClassCounts_split s w c]
  simp only [move_word_counts, move_word_to_class, Function.update_same]
  rw [erase_sum_update s w k (fun i _ => s.word_counts i) c,
    ite_flip (s.word_to_class w) c, ite_flip k c]
  ring

lemma computeCwCounts_move (s : CountStore V C) (w : Fin V) (k : Fin C)
    (a : Fin C) (r : Fin V) :
    computeCwCounts (move s w k) a r
      = computeCwCounts s a r
        - (if a = s.word_to_class w then s.ww_counts w r else 0)
        + (if a = k then s.ww_counts w r else 0) := by
  rw [computeCwCounts_split (move s w k) w a r, computeCwCounts_split s w a r]
  simp only [move_ww_counts, move_word_to_class, Function.update_same]
  rw [erase_sum_update s w k (fun i _ => s.ww_counts i r) a,
    ite_flip (s.word_to_class w) a, ite_flip k a]
  ring

lemma computeWcCounts_move (s : CountStore V C) (w : Fin V) (k : Fin C)
    (l : Fin V) (b : Fin C) :
    computeWcCounts (move s w k) l b
      = computeWcCounts s l b
        - (if b = s.word_to_class w then s.ww_counts l w else 0)
        + (if b = k then s.ww_counts l w else 0) := by
  rw [computeWcCounts_split (move s w k) w l b, computeWcCounts_split s w l b]
  simp only [move_ww_counts, move_word_to_class, Function.update_same]
  rw [erase_sum_update s w k (fun j _ => s.ww_counts l j) b,
    ite_flip (s.word_to_class w) b, ite_flip k b]
  ring

lemma computeCcCounts_move (s : CountStore V C) (w : Fin V) (k : Fin C) (a b : Fin C) :
    computeCcCounts (move s w k) a b
      = computeCcCounts s a b
        - (if a = s.word_to_class w then rightSum s w b else 0)
        + (if a = k then rightSum s w b else 0)
        - (if b = s.word_to_class w then leftSum s w a else 0)
        + (if b = k then leftSum s w a else 0)
        - (if a = s.word_to_class w ∧ b = s.word_to_class w then s.ww_counts w w else 0)
        + (if a = k ∧ b = k then s.ww_counts w w else 0) := by
  rw [computeCcCounts_split (move s w k) w a b, computeCcCounts_split s w a b]
  simp only [move_ww_counts, move_word_to_class, Function.update_same,
    rightSum_move, leftSum_move]
  have hS2 : (∑ i ∈ Finset.univ.erase w, ∑ j ∈ Finset.univ.erase w,
      (if Function.update s.word_to_class w k i = a ∧
          Function.update s.word_to_class w k j = b then s.ww_counts i j else 0))
      = ∑ i ∈ Finset.univ.erase w, ∑ j ∈ Finset.univ.erase w,
        (if s.word_to_class i = a ∧ s.word_to_class j = b then s.ww_counts i j else 0) := by
    refine Finset.sum_congr rfl fun i hi => Finset.sum_congr rfl fun j hj => ?_
    rcases Finset.mem_erase.mp hi with ⟨hi', -⟩
    rcases Finset.mem_erase.mp hj with ⟨hj', -⟩
    rw [Function.update_noteq hi', Function.update_noteq hj']
  rw [hS2, ite_flip (s.word_to_class w) a, ite_flip (s.word_to_class w) b,
    ite_flip2 (s.word_to_class w) a (s.word_to_class w) b,
    ite_flip k a, ite_flip k b, ite_flip2 k a k b]
  ring

/-- `_move` keeps the five derived-table invariants (§4.4 postcondition). -/
lemma move_consistent {s : CountStore V C} (hs : Consistent s) (w : Fin V) (k : Fin C) :
    Consistent (move s w k) := by
  obtain ⟨h1, h2, h3, h4, h5⟩ := hs
  refine ⟨fun c => ?_, fun a b => ?_, fun a r => ?_, fun l b => ?_, fun c i => ?_⟩
  · rw [move_class_counts, computeClassCounts_move, h1 c]
  · rw [move_cc_counts, computeCcCounts_move, h2 a b]
  · rw [move_cw_counts, computeCwCounts_move, h3 a r]
  · rw [move_wc_counts, computeWcCounts_move, h4 l b]
  · rw [move_class_to_words, move_word_to_class]
    by_cases hik : i = w
    · subst hik
      rw [Function.update_same]
      simp only [Function.update_apply]
      split_ifs with hck hko hco <;>
        simp_all [Finset.mem_insert, Finset.mem_erase, h5] <;>
        first
        | exact fun h => hck h.symm
        | exact iff_of_false (fun h => hco h.symm) (fun h => hck h.symm)
    · rw [Function.update_noteq hik]
      simp only [Function.update_apply]
      split_ifs with hck hko hco <;>
        simp_all [Finset.mem_insert, Finset.mem_erase, h5] <;> tauto

lemma move_nonneg {s : CountStore V C} (hs : NonnegData s) (w : Fin V) (k : Fin C) :
    NonnegData (move s w k) := hs

/-! ### Reversibility of `_move` -/

lemma move_move_word_to_class (s : CountStore V C) (w : Fin V) (k : Fin C) :
    (move (move s w k) w (s.word_to_class w)).word_to_class = s.word_to_class := by
  rw [move_word_to_class, move_word_to_class, Function.update_idem,
    Function.update_eq_self]

/-- Moving `w` from its class `A` to `B` and then back to `A` restores
the exact state. -/
lemma move_move_cancel {s : CountStore V C} (hs : Consistent s) (w : Fin V) (k : Fin C) :
    move (move s w k) w (s.word_to_class w) = s := by
  have hs2 := move_consistent (move_consistent hs w k) w (s.word_to_class w)
  have hw2c := move_move_word_to_class s w k
  have hwc : (move (move s w k) w (s.word_to_class w)).word_counts = s.word_counts := rfl
  have hww : (move (move s w k) w (s.word_to_class w)).ww_counts = s.ww_counts := rfl
  have hcl : ∀ c, (move (move s w k) w (s.word_to_class w)).class_counts c = s.class_counts c := by
    intro c
    rw [hs2.1 c, hs.1 c]
    unfold computeClassCounts
    rw [hw2c, hwc]
  have hcc : ∀ a b, (move (move s w k) w (s.word_to_class w)).cc_counts a b = s.cc_counts a b := by
    intro a b
    rw [hs2.2.1 a b, hs.2.1 a b]
    unfold computeCcCounts
    rw [hw2c, hww]
  have hcw : ∀ a r, (move (move s w k) w (s.word_to_class w)).cw_counts a r = s.cw_counts a r := by
    intro a r
    rw [hs2.2.2.1 a r, hs.2.2.1 a r]
    unfold computeCwCounts
    rw [hw2c, hww]
  have hwcq : ∀ l b, (move (move s w k) w (s.word_to_class w)).wc_counts l b = s.wc_counts l b := by
    intro l b
    rw [hs2.2.2.2.1 l b, hs.2.2.2.1 l b]
    unfold computeWcCounts
    rw [hw2c, hww]
  have hctw : ∀ c, (move (move s w k) w (s.word_to_class w)).class_to_words c = s.class_to_words c := by
    intro c
    ext i
    rw [hs2.2.2.2.2 c i, hs.2.2.2.2 c i, hw2c]
  ext
  case word_counts => exact congrFun hwc _
  case ww_counts => exact congrFun (congrFun hww _) _
  case word_to_class => exact congrArg Fin.val (congrFun hw2c _)
  case class_counts => exact hcl _
  case cc_counts => exact hcc _ _
  case cw_counts => exact hcw _ _
  case wc_counts => exact hwcq _ _
  case class_to_words => rw [hctw _]

/-! ### Self-moves leave the tables unchanged -/

/-- `_move(word, current_class)` is the identity on a consistent state. -/
lemma move_self {s : CountStore V C} (hs : Consistent s) (w : Fin V) :
    move s w (s.word_to_class w) = s := by
  have hs2 := move_consistent hs w (s.word_to_class w)
  have hw2c : (move s w (s.word_to_class w)).word_to_class = s.word_to_class := by
    rw [move_word_to_class, Function.update_eq_self]
  have hwc : (move s w (s.word_to_class w)).word_counts = s.word_counts := rfl
  have hww : (move s w (s.word_to_class w)).ww_counts = s.ww_counts := rfl
  have hcl : ∀ c, (move s w (s.word_to_class w)).class_counts c = s.class_counts c := by
    intro c
    rw [hs2.1 c, hs.1 c]
    unfold computeClassCounts
    rw [hw2c, hwc]
  have hcc : ∀ a b, (move s w (s.word_to_class w)).cc_counts a b = s.cc_counts a b := by
    intro a b
    rw [hs2.2.1 a b, hs.2.1 a b]
    unfold computeCcCounts
    rw [hw2c, hww]
  have hcw : ∀ a r, (move s w (s.word_to_class w)).cw_counts a r = s.cw_counts a r := by
    intro a r
    rw [hs2.2.2.1 a r, hs.2.2.1 a r]
    unfold computeCwCounts
    rw [hw2c, hww]
  have hwcq : ∀ l b, (move s w (s.word_to_class w)).wc_counts l b = s.wc_counts l b := by
    intro l b
    rw [hs2.2.2.2.1 l b, hs.2.2.2.1 l b]
    unfold computeWcCounts
    rw [hw2c, hww]
  have hctw : ∀ c, (move s w (s.word_to_class w)).class_to_words c = s.class_to_words c := by
    intro c
    ext i
    rw [hs2.2.2.2.2 c i, hs.2.2.2.2 c i, hw2c]
  ext
  case word_counts => exact congrFun hwc _
  case ww_counts => exact congrFun (congrFun hww _) _
  case word_to_class => exact congrArg Fin.val (congrFun hw2c _)
  case class_counts => exact hcl _
  case cc_counts => exact hcc _ _
  case cw_counts => exact hcw _ _
  case wc_counts => exact hwcq _ _
  case class_to_words => rw [hctw _]

/-! ### Conservation of the table sums under `_move` -/

lemma sum_class_counts_move (s : CountStore V C) (w : Fin V) (k : Fin C) :
    ∑ c : Fin C, (move s w k).class_counts c = ∑ c : Fin C, s.class_counts c := by
  simp only [move_class_counts]
  rw [Finset.sum_add_distrib, Finset.sum_sub_distrib]
  rw [Finset.sum_ite_eq' Finset.univ (s.word_to_class w) (fun _ => s.word_counts w),
    Finset.sum_ite_eq' Finset.univ k (fun _ => s.word_counts w)]
  simp

lemma sum_cc_counts_move (s : CountStore V C) (w : Fin V) (k : Fin C) :
    ∑ a : Fin C, ∑ b : Fin C, (move s w k).cc_counts a b
      = ∑ a : Fin C, ∑ b : Fin C, s.cc_counts a b := by
  have inner : ∀ a : Fin C, ∑ b : Fin C, (move s w k).cc_counts a b
      = (∑ b : Fin C, s.cc_counts a b)
        - (if a = s.word_to_class w then
            (∑ b : Fin C, rightSum s w b) + s.ww_counts w w else 0)
        + (if a = k then (∑ b : Fin C, rightSum s w b) + s.ww_counts w w else 0) := by
    intro a
    by_cases ha : a = s.word_to_class w
    · by_cases hk : a = k
      · have hok : s.word_to_class w = k := ha.symm.trans hk
        subst ha
        simp [move_cc_counts, ← hok, Finset.sum_add_distrib, Finset.sum_sub_distrib,
          Finset.sum_ite_eq']
      · subst ha
        simp [move_cc_counts, hk, Finset.sum_add_distrib, Finset.sum_sub_distrib,
          Finset.sum_ite_eq']
        ring
    · by_cases hk : a = k
      · subst hk
        simp [move_cc_counts, ha, Finset.sum_add_distrib, Finset.sum_sub_distrib,
          Finset.sum_ite_eq']
        ring
      · simp [move_cc_counts, ha, hk, Finset.sum_add_distrib, Finset.sum_sub_distrib,
          Finset.sum_ite_eq']
  rw [Finset.sum_congr rfl fun a _ => inner a]
  rw [Finset.sum_add_distrib, Finset.sum_sub_distrib]
  rw [Finset.sum_ite_eq' Finset.univ (s.word_to_class w)
      (fun _ => (∑ b : Fin C, rightSum s w b) + s.ww_counts w w),
    Finset.sum_ite_eq' Finset.univ k
      (fun _ => (∑ b : Fin C, rightSum s w b) + s.ww_counts w w)]
  simp

/-! ### Sums of the freshly aggregated tables -/

lemma sum_computeClassCounts (s : CountStore V C) :
    ∑ k : Fin C, computeClassCounts s k = ∑ i : Fin V, s.word_counts i := by
  unfold computeClassCounts
  rw [Finset.sum_comm]
  refine Finset.sum_congr rfl fun i _ => ?_
  rw [Finset.sum_ite_eq Finset.univ (s.word_to_class i) (fun _ => s.word_counts i)]
  simp

lemma sum_computeCcCounts (s : CountStore V C) :
    ∑ a : Fin C, ∑ b : Fin C, computeCcCounts s a b
      = ∑ i : Fin V, ∑ j : Fin V, s.ww_counts i j := by
  unfold computeCcCounts
  have h1 : ∀ a : Fin C, (∑ b : Fin C, ∑ i : Fin V, ∑ j : Fin V,
      (if s.word_to_class i = a ∧ s.word_to_class j = b then s.ww_counts i j else 0))
      = ∑ i : Fin V, ∑ b : Fin C, ∑ j : Fin V,
        (if s.word_to_class i = a ∧ s.word_to_class j = b then s.ww_counts i j else 0) :=
    fun a => Finset.sum_comm
  rw [Finset.sum_congr rfl fun a _ => h1 a, Finset.sum_comm]
  refine Finset.sum_congr rfl fun i _ => ?_
  have h2 : (∑ a : Fin C, ∑ b : Fin C, ∑ j : Fin V,
      (if s.word_to_class i = a ∧ s.word_to_class j = b then s.ww_counts i j else 0))
      = ∑ j : Fin V, ∑ a : Fin C, ∑ b : Fin C,
        (if s.word_to_class i = a ∧ s.word_to_class j = b then s.ww_counts i j else 0) := by
    rw [Finset.sum_congr rfl fun a (_ : a ∈ Finset.univ) => Finset.sum_comm, Finset.sum_comm]
  rw [h2]
  refine Finset.sum_congr rfl fun j _ => ?_
  have h3 : ∀ a : Fin C, (∑ b : Fin C,
      (if s.word_to_class i = a ∧ s.word_to_class j = b then s.ww_counts i j else 0))
      = (if s.word_to_class i = a then s.ww_counts i j else 0) := by
    intro a
    by_cases hia : s.word_to_class i = a <;>
      simp [hia, Finset.sum_ite_eq]
  rw [Finset.sum_congr rfl fun a _ => h3 a,
    Finset.sum_ite_eq Finset.univ (s.word_to_class i) (fun _ => s.ww_counts i j)]
  simp

/-! ### Counting lemmas for the corpus statistics -/

lemma sum_count_eq_length (l : List ℕ) (hl : ∀ x ∈ l, x < V) :
    (∑ i : Fin V, (l.count i.val : ℤ)) = l.length := by
  induction l with
  | nil => simp
  | cons a t ih =>
    have ha : a < V := hl a (List.mem_cons_self a t)
    have ht : ∀ x ∈ t, x < V := fun x hx => hl x (List.mem_cons_of_mem a hx)
    have hcount : ∀ i : Fin V, ((a :: t).count i.val : ℤ)
        = (t.count i.val : ℤ) + (if i = (⟨a, ha⟩ : Fin V) then 1 else 0) := by
      intro i
      rw [List.count_cons]
      by_cases h : i = (⟨a, ha⟩ : Fin V)
      · subst h
        simp
      · have h' : ¬ (a = i.val) := fun hv => h (Fin.ext hv.symm)
        simp [h, h']
    rw [Finset.sum_congr rfl fun i _ => hcount i, Finset.sum_add_distrib, ih ht,
      Finset.sum_ite_eq' Finset.univ (⟨a, ha⟩ : Fin V) (fun _ => (1 : ℤ))]
    simp

lemma sum_count_pairs_eq_length (l : List (ℕ × ℕ)) (hl : ∀ p ∈ l, p.1 < V ∧ p.2 < V) :
    (∑ i : Fin V, ∑ j : Fin V, (l.count (i.val, j.val) : ℤ)) = l.length := by
  induction l with
  | nil => simp
  | cons a t ih =>
    have ha := hl a (List.mem_cons_self a t)
    have ht : ∀ p ∈ t, p.1 < V ∧ p.2 < V := fun p hp => hl p (List.mem_cons_of_mem a hp)
    have hcount : ∀ i j : Fin V, ((a :: t).count (i.val, j.val) : ℤ)
        = (t.count (i.val, j.val) : ℤ)
          + (if i = (⟨a.1, ha.1⟩ : Fin V) ∧ j = (⟨a.2, ha.2⟩ : Fin V) then 1 else 0) := by
      intro i j
      rw [List.count_cons]
      by_cases h : i = (⟨a.1, ha.1⟩ : Fin V) ∧ j = (⟨a.2, ha.2⟩ : Fin V)
      · obtain ⟨h1, h2⟩ := h
        subst h1; subst h2
        simp
      · have h' : ¬ (a = (i.val, j.val)) := by
          intro hv
          exact h ⟨Fin.ext (congrArg Prod.fst hv).symm, Fin.ext (congrArg Prod.snd hv).symm⟩
        simp [h, h']
    have hrw : ∀ i : Fin V, (∑ j : Fin V, ((a :: t).count (i.val, j.val) : ℤ))
        = (∑ j : Fin V, (t.count (i.val, j.val) : ℤ))
          + (if i = (⟨a.1, ha.1⟩ : Fin V) then 1 else 0) := by
      intro i
      rw [Finset.sum_congr rfl fun j _ => hcount i j, Finset.sum_add_distrib]
      congr 1
      by_cases h1 : i = (⟨a.1, ha.1⟩ : Fin V)
      · simp only [h1, true_and]
        rw [Finset.sum_ite_eq' Finset.univ (⟨a.2, ha.2⟩ : Fin V) (fun _ => (1 : ℤ))]
        simp
      · simp [h1]
    rw [Finset.sum_congr rfl fun i _ => hrw i, Finset.sum_add_distrib, ih ht,
      Finset.sum_ite_eq' Finset.univ (⟨a.1, ha.1⟩ : Fin V) (fun _ => (1 : ℤ))]
    simp

lemma mkSentence_mem_lt (vocab : List String) (line : List String)
    (h1 : "<s>" ∈ vocab) (h2 : "</s>" ∈ vocab) (h3 : "<UNK>" ∈ vocab) :
    ∀ x ∈ mkSentence vocab line, x < vocab.length := by
  intro x hx
  unfold mkSentence at hx
  rcases List.mem_cons.mp hx with hx | hx
  · subst hx
    exact List.indexOf_lt_length.mpr h1
  · rcases List.mem_append.mp hx with hx | hx
    · rcases List.mem_map.mp hx with ⟨t, -, ht⟩
      subst ht
      by_cases hmem : t ∈ vocab
      · simpa [hmem, wordId] using List.indexOf_lt_length.mpr hmem
      · simpa [hmem, wordId] using List.indexOf_lt_length.mpr h3
    · rcases List.mem_singleton.mp hx with rfl
      exact List.indexOf_lt_length.mpr h2

lemma corpusTokens_mem_lt (vocab : List String) (corpus : List (List String))
    (h1 : "<s>" ∈ vocab) (h2 : "</s>" ∈ vocab) (h3 : "<UNK>" ∈ vocab) :
    ∀ x ∈ corpusTokens vocab corpus, x < vocab.length := by
  intro x hx
  rcases List.mem_flatten.mp hx with ⟨l, hl, hxl⟩
  rcases List.mem_map.mp hl with ⟨line, -, hline⟩
  subst hline
  exact mkSentence_mem_lt vocab line h1 h2 h3 x hxl

lemma corpusPairs_mem_lt (vocab : List String) (corpus : List (List String))
    (h1 : "<s>" ∈ vocab) (h2 : "</s>" ∈ vocab) (h3 : "<UNK>" ∈ vocab) :
    ∀ p ∈ corpusPairs vocab corpus, p.1 < vocab.length ∧ p.2 < vocab.length := by
  intro p hp
  rcases List.mem_flatten.mp hp with ⟨l, hl, hpl⟩
  rcases List.mem_map.mp hl with ⟨line, -, hline⟩
  subst hline
  obtain ⟨x, y⟩ := p
  have hmem := List.of_mem_zip hpl
  constructor
  · exact mkSentence_mem_lt vocab line h1 h2 h3 x hmem.1
  · exact mkSentence_mem_lt vocab line h1 h2 h3 y
      (List.mem_of_mem_tail hmem.2)

lemma mkSentence_length (vocab : List String) (line : List String) :
    (mkSentence vocab line).length = line.length + 2 := by
  simp [mkSentence]

lemma corpusPairs_length (vocab : List String) (corpus : List (List String)) :
    (corpusPairs vocab corpus).length + corpus.length
      = totalTokens vocab corpus := by
  induction corpus with
  | nil => simp [corpusPairs, totalTokens, corpusTokens]
  | cons line rest ih =>
    have hp : corpusPairs vocab (line :: rest)
        = ((mkSentence vocab line).zip (mkSentence vocab line).tail)
          ++ corpusPairs vocab rest := by
      simp [corpusPairs]
    have ht : corpusTokens vocab (line :: rest)
        = mkSentence vocab line ++ corpusTokens vocab rest := by
      simp [corpusTokens]
    have hzip : ((mkSentence vocab line).zip (mkSentence vocab line).tail).length
        = line.length + 1 := by
      rw [List.length_zip, List.length_tail, mkSentence_length]
      omega
    unfold totalTokens at ih ⊢
    rw [hp, ht, List.length_append, List.length_append, hzip, List.length_cons,
      mkSentence_length]
    omega

/-! ### The constructed state -/

lemma initialState_consistent (vocab : List String) (corpus : List (List String))
    (w2c : Fin vocab.length → Fin C) :
    Consistent (initialState vocab corpus w2c) := by
  refine ⟨fun k => rfl, fun a b => rfl, fun a j => rfl, fun i b => rfl, fun k i => ?_⟩
  simp [initialState, Finset.mem_filter]

lemma initialState_nonneg (vocab : List String) (corpus : List (List String))
    (w2c : Fin vocab.length → Fin C) :
    NonnegData (initialState vocab corpus w2c) := by
  constructor
  · intro i
    exact Int.ofNat_nonneg _
  · intro i j
    exact Int.ofNat_nonneg _

lemma sum_word_counts_initial (vocab : List String) (corpus : List (List String))
    (h1 : "<s>" ∈ vocab) (h2 : "</s>" ∈ vocab) (h3 : "<UNK>" ∈ vocab)
    (w2c : Fin vocab.length → Fin C) :
    (∑ i, (initialState vocab corpus w2c).word_counts i)
      = totalTokens vocab corpus :=
  sum_count_eq_length _ (corpusTokens_mem_lt vocab corpus h1 h2 h3)

lemma sum_ww_counts_initial (vocab : List String) (corpus : List (List String))
    (h1 : "<s>" ∈ vocab) (h2 : "</s>" ∈ vocab) (h3 : "<UNK>" ∈ vocab)
    (w2c : Fin vocab.length → Fin C) :
    (∑ i, ∑ j, (initialState vocab corpus w2c).ww_counts i j)
        + corpus.length
      = totalTokens vocab corpus := by
  have h := sum_count_pairs_eq_length (corpusPairs vocab corpus)
    (corpusPairs_mem_lt vocab corpus h1 h2 h3)
  have : (∑ i, ∑ j, (initialState vocab corpus w2c).ww_counts i j)
      = ((corpusPairs vocab corpus).length : ℤ) := h
  rw [this]
  exact_mod_cast corpusPairs_length vocab corpus

/-! ### Conservation along any sequence of moves -/

lemma reachable_word_counts {s0 s : CountStore V C} (h : ReachableFrom s0 s) :
    s.word_counts = s0.word_counts := by
  induction h with
  | refl => rfl
  | step w k _ ih => rw [move_word_counts]; exact ih

lemma reachable_ww_counts {s0 s : CountStore V C} (h : ReachableFrom s0 s) :
    s.ww_counts = s0.ww_counts := by
  induction h with
  | refl => rfl
  | step w k _ ih => rw [move_ww_counts]; exact ih

lemma reachable_sum_class_counts {s0 s : CountStore V C} (h : ReachableFrom s0 s) :
    ∑ c, s.class_counts c = ∑ c, s0.class_counts c := by
  induction h with
  | refl => rfl
  | step w k _ ih => rw [sum_class_counts_move]; exact ih

lemma reachable_sum_cc_counts {s0 s : CountStore V C} (h : ReachableFrom s0 s) :
    ∑ a, ∑ b, s.cc_counts a b = ∑ a, ∑ b, s0.cc_counts a b := by
  induction h with
  | refl => rfl
  | step w k _ ih => rw [sum_cc_counts_move]; exact ih

/-- Conservation: along any move sequence from a constructed state,
`Σ class_counts = Σ word_counts = N` and `Σ cc_counts = Σ ww_counts =
N − (number of lines)`. -/
lemma reachable_conservation (vocab : List String) (corpus : List (List String))
    (h1 : "<s>" ∈ vocab) (h2 : "</s>" ∈ vocab) (h3 : "<UNK>" ∈ vocab)
    (w2c : Fin vocab.length → Fin C) (s : CountStore vocab.length C)
    (h : ReachableFrom (initialState vocab corpus w2c) s) :
    (∑ c, s.class_counts c = ∑ i, s.word_counts i) ∧
    ((∑ i, s.word_counts i) = totalTokens vocab corpus) ∧
    (∑ a, ∑ b, s.cc_counts a b = ∑ i, ∑ j, s.ww_counts i j) ∧
    ((∑ i, ∑ j, s.ww_counts i j) + corpus.length = totalTokens vocab corpus) := by
  have hw := reachable_word_counts h
  have hww := reachable_ww_counts h
  have hwsum : (∑ i, s.word_counts i) = totalTokens vocab corpus := by
    rw [hw]
    exact sum_word_counts_initial vocab corpus h1 h2 h3 w2c
  have hwwsum : (∑ i, ∑ j, s.ww_counts i j) + corpus.length
      = totalTokens vocab corpus := by
    rw [show (∑ i, ∑ j, s.ww_counts i j)
        = ∑ i, ∑ j, (initialState vocab corpus w2c).ww_counts i j by rw [hww]]
    exact sum_ww_counts_initial vocab corpus h1 h2 h3 w2c
  refine ⟨?_, hwsum, ?_, hwwsum⟩
  · rw [reachable_sum_class_counts h, hw]
    exact sum_computeClassCounts (initialState vocab corpus w2c)
  · rw [reachable_sum_cc_counts h, hww]
    exact sum_computeCcCounts (initialState vocab corpus w2c)

/-! ### Behaviour of the class-initialization loop -/

/-- The running `class_id` of the loop never exceeds 3 (it starts at 3
and each step sets it to `min (_ % numCl) 3`), so for `numCl > 3` the
`class_to_words[class_id]` access never goes out of range. -/
lemma assignRest_isOk (numCl : ℕ) (hC : 3 < numCl) :
    ∀ (ws : List ℕ) (cid : ℕ), cid ≤ 3 → (assignRest numCl ws cid).isOk = true := by
  intro ws
  induction ws with
  | nil => intro cid _; rfl
  | cons w ws ih =>
    intro cid hcid
    have hlt : cid < numCl := lt_of_le_of_lt hcid hC
    have hnext : min ((cid + 1) % numCl) 3 ≤ 3 := min_le_right _ _
    have := ih (min ((cid + 1) % numCl) 3) hnext
    unfold assignRest
    rw [if_pos hlt]
    cases h : assignRest numCl ws (min ((cid + 1) % numCl) 3) with
    | ok rest => rfl
    | error e => rw [h] at this; exact absurd this (by simp [Except.isOk, Except.toBool])

/-- For `numCl ≤ 3` (i.e. `num_classes ≤ 0`) the first assignment of a
non-reserved word raises `IndexError`. -/
lemma assignRest_error (numCl : ℕ) (hC : numCl ≤ 3) (w : ℕ) (ws : List ℕ) :
    (assignRest numCl (w :: ws) 3).isOk = false := by
  unfold assignRest
  rw [if_neg (by omega)]
  rfl

/-- `_freq_init_classes` succeeds for every positive `num_classes`,
regardless of the vocabulary size. -/
lemma freqInit_isOk (vocab : List String) (corpus : List (List String))
    (n : ℤ) (hn : 0 < n) :
    (freqInit vocab corpus n).isOk = true := by
  unfold freqInit
  have hC : 3 < (numClassesTotal n).toNat := by
    unfold numClassesTotal
    omega
  rw [if_neg (by omega)]
  have h := assignRest_isOk (numClassesTotal n).toNat hC
    ((sortedWordIds vocab corpus).filter fun w => w ∉ specialIds vocab) 3 le_rfl
  cases hres : assignRest (numClassesTotal n).toNat
      ((sortedWordIds vocab corpus).filter fun w => w ∉ specialIds vocab) 3 with
  | ok rest => rfl
  | error e => rw [hres] at h; exact absurd h (by simp [Except.isOk, Except.toBool])

/-- `_freq_init_classes` raises an uncaught `IndexError` for
non-positive `num_classes` whenever there is at least one non-reserved
word to assign. -/
lemma freqInit_error (vocab : List String) (corpus : List (List String))
    (n : ℤ) (hn : n ≤ 0)
    (hne : ((sortedWordIds vocab corpus).filter fun w => w ∉ specialIds vocab) ≠ []) :
    (freqInit vocab corpus n).isOk = false := by
  unfold freqInit
  by_cases h3 : (numClassesTotal n).toNat < 3
  · rw [if_pos h3]; rfl
  · rw [if_neg h3]
    have hC : (numClassesTotal n).toNat ≤ 3 := by
      unfold numClassesTotal
      omega
    cases hws : (sortedWordIds vocab corpus).filter fun w => w ∉ specialIds vocab with
    | nil => exact absurd hws hne
    | cons w ws =>
      have := assignRest_error (numClassesTotal n).toNat hC w ws
      cases hres : assignRest (numClassesTotal n).toNat (w :: ws) 3 with
      | ok rest => rw [hres] at this; exact absurd this (by simp [Except.isOk, Except.toBool])
      | error e => rfl

/-! ### Small facts about the log-count terms -/

lemma mllTerm_of_nonneg {n : ℤ} (hn : 0 ≤ n) :
    mllTerm n = (n : ℝ) * Real.log n := by
  unfold mllTerm
  rcases eq_or_lt_of_le hn with h | h
  · simp [← h]
  · rw [if_neg (by omega)]

lemma mllTerm_zero : mllTerm 0 = 0 := by
  simp [mllTerm]

lemma ll_change_eq {o n : ℤ} (ho : 0 ≤ o) (hn : 0 ≤ n) :
    ll_change o n = mllTerm n - mllTerm o := by
  unfold ll_change
  by_cases ho0 : o = 0 <;> by_cases hn0 : n = 0
  · rw [if_pos ho0, if_pos hn0, ho0, hn0, mllTerm_zero]
    ring
  · rw [if_pos ho0, if_neg hn0, mllTerm_of_nonneg hn, ho0, mllTerm_zero]
    ring
  · rw [if_neg ho0, if_pos hn0, hn0, mllTerm_zero, mllTerm_of_nonneg ho]
    ring
  · rw [if_neg ho0, if_neg hn0, mllTerm_of_nonneg hn, mllTerm_of_nonneg ho]
    ring

/-! ### Non-negativity of the aggregated tables -/

lemma computeClassCounts_nonneg {s : CountStore V C} (hn : NonnegData s) (c : Fin C) :
    0 ≤ computeClassCounts s c := by
  refine Finset.sum_nonneg fun i _ => ?_
  by_cases h : s.word_to_class i = c <;> simp [h, hn.1 i]

lemma computeCcCounts_nonneg {s : CountStore V C} (hn : NonnegData s) (a b : Fin C) :
    0 ≤ computeCcCounts s a b := by
  refine Finset.sum_nonneg fun i _ => Finset.sum_nonneg fun j _ => ?_
  by_cases h : s.word_to_class i = a ∧ s.word_to_class j = b <;> simp [h, hn.2 i j]

lemma class_counts_nonneg {s : CountStore V C} (hs : Consistent s) (hn : NonnegData s)
    (c : Fin C) : 0 ≤ s.class_counts c := by
  rw [hs.1 c]
  exact computeClassCounts_nonneg hn c

lemma cc_counts_nonneg {s : CountStore V C} (hs : Consistent s) (hn : NonnegData s)
    (a b : Fin C) : 0 ≤ s.cc_counts a b := by
  rw [hs.2.1 a b]
  exact computeCcCounts_nonneg hn a b

lemma word_count_le_class_count {s : CountStore V C} (hs : Consistent s)
    (hn : NonnegData s) (w : Fin V) :
    s.word_counts w ≤ s.class_counts (s.word_to_class w) := by
  rw [hs.1]
  unfold computeClassCounts
  have hle := @Finset.single_le_sum (Fin V) ℤ _
    (fun i => if s.word_to_class i = s.word_to_class w then s.word_counts i else 0)
    Finset.univ (fun i _ => by
      by_cases h : s.word_to_class i = s.word_to_class w <;> simp [h, hn.1 i])
    w (Finset.mem_univ w)
  simpa using hle

/-! ### The mixed tables in terms of the loop sums of `_move` -/

lemma wc_eq_rightSum {s : CountStore V C} (hs : Consistent s) (w : Fin V) (X : Fin C)
    (hX : s.word_to_class w ≠ X) :
    s.wc_counts w X = rightSum s w X := by
  rw [hs.2.2.2.1 w X, computeWcCounts_split s w w X, if_neg hX]
  unfold rightSum
  simp

lemma wc_self_eq {s : CountStore V C} (hs : Consistent s) (w : Fin V) :
    s.wc_counts w (s.word_to_class w)
      = rightSum s w (s.word_to_class w) + s.ww_counts w w := by
  rw [hs.2.2.2.1 w _, computeWcCounts_split s w w _, if_pos rfl]
  unfold rightSum
  ring

lemma cw_eq_leftSum {s : CountStore V C} (hs : Consistent s) (w : Fin V) (X : Fin C)
    (hX : s.word_to_class w ≠ X) :
    s.cw_counts X w = leftSum s w X := by
  rw [hs.2.2.1 X w, computeCwCounts_split s w X w, if_neg hX]
  unfold leftSum
  simp

lemma cw_self_eq {s : CountStore V C} (hs : Consistent s) (w : Fin V) :
    s.cw_counts (s.word_to_class w) w
      = leftSum s w (s.word_to_class w) + s.ww_counts w w := by
  rw [hs.2.2.1 _ w, computeCwCounts_split s w _ w, if_pos rfl]
  unfold leftSum
  ring

/-! ### Splitting a class sum at the old and the new class -/

lemma sum_split2 {o k : Fin C} (hok : o ≠ k) (g : Fin C → ℝ) :
    (∑ c : Fin C, g c)
      = g o + g k + ∑ c ∈ (Finset.univ.erase o).erase k, g c := by
  have hk : k ∈ Finset.univ.erase o :=
    Finset.mem_erase.mpr ⟨fun h => hok h.symm, Finset.mem_univ k⟩
  rw [← Finset.add_sum_erase _ g (Finset.mem_univ o), ← Finset.add_sum_erase _ g hk,
    Finset.erase_right_comm]
  ring

lemma sum_ite_ne {o k : Fin C} (hok : o ≠ k) (g : Fin C → ℝ) :
    (∑ X : Fin C, if X ≠ o ∧ X ≠ k then g X else 0)
      = ∑ X ∈ (Finset.univ.erase o).erase k, g X := by
  rw [sum_split2 hok (fun X => if X ≠ o ∧ X ≠ k then g X else 0)]
  have h1 : (if (o : Fin C) ≠ o ∧ (o : Fin C) ≠ k then g o else 0) = 0 := by simp
  have h2 : (if (k : Fin C) ≠ o ∧ (k : Fin C) ≠ k then g k else 0) = 0 := by simp
  rw [h1, h2]
  have h3 : ∀ X ∈ (Finset.univ.erase o).erase k,
      (if X ≠ o ∧ X ≠ k then g X else 0) = g X := by
    intro X hX
    rcases Finset.mem_erase.mp hX with ⟨hXk, hX'⟩
    rcases Finset.mem_erase.mp hX' with ⟨hXo, -⟩
    rw [if_pos ⟨hXo, hXk⟩]
  rw [Finset.sum_congr rfl h3]
  ring

/-! ### The likelihood delta of a move, class-count part -/

lemma class_sum_delta (s : CountStore V C) (w : Fin V) (k : Fin C)
    (hk : k ≠ s.word_to_class w) :
    (∑ c, mllTerm ((move s w k).class_counts c))
      = (∑ c, mllTerm (s.class_counts c))
        + (mllTerm (s.class_counts (s.word_to_class w) - s.word_counts w)
            - mllTerm (s.class_counts (s.word_to_class w)))
        + (mllTerm (s.class_counts k + s.word_counts w) - mllTerm (s.class_counts k)) := by
  have hok : s.word_to_class w ≠ k := Ne.symm hk
  have hmo : (move s w k).class_counts (s.word_to_class w)
      = s.class_counts (s.word_to_class w) - s.word_counts w := by
    rw [move_class_counts, if_pos rfl, if_neg hok]
    ring
  have hmk : (move s w k).class_counts k = s.class_counts k + s.word_counts w := by
    rw [move_class_counts, if_neg hk, if_pos rfl]
    ring
  rw [sum_split2 hok (fun c => mllTerm ((move s w k).class_counts c)),
    sum_split2 hok (fun c => mllTerm (s.class_counts c)), hmo, hmk]
  have hms : ∀ c ∈ (Finset.univ.erase (s.word_to_class w)).erase k,
      mllTerm ((move s w k).class_counts c) = mllTerm (s.class_counts c) := by
    intro c hc
    rcases Finset.mem_erase.mp hc with ⟨hck, hc'⟩
    rcases Finset.mem_erase.mp hc' with ⟨hco, -⟩
    rw [move_class_counts, if_neg hco, if_neg hck]
    norm_num
  rw [Finset.sum_congr rfl hms]
  ring

/-! ### The likelihood delta of a move, class-bigram part -/

lemma cc_sum_delta {s : CountStore V C} (hs : Consistent s) (hn : NonnegData s)
    (w : Fin V) (k : Fin C) (hk : k ≠ s.word_to_class w) :
    (∑ a, ∑ b, mllTerm ((move s w k).cc_counts a b))
      = (∑ a, ∑ b, mllTerm (s.cc_counts a b))
        + (∑ X, if X ≠ s.word_to_class w ∧ X ≠ k then
            ll_change (s.cc_counts (s.word_to_class w) X)
              (s.cc_counts (s.word_to_class w) X - s.wc_counts w X)
            + ll_change (s.cc_counts k X) (s.cc_counts k X + s.wc_counts w X) else 0)
        + (∑ X, if X ≠ s.word_to_class w ∧ X ≠ k then
            ll_change (s.cc_counts X (s.word_to_class w))
              (s.cc_counts X (s.word_to_class w) - s.cw_counts X w)
            + ll_change (s.cc_counts X k) (s.cc_counts X k + s.cw_counts X w) else 0)
        + ll_change (s.cc_counts (s.word_to_class w) k)
            (s.cc_counts (s.word_to_class w) k - s.wc_counts w k
              + s.cw_counts (s.word_to_class w) w - s.ww_counts w w)
        + ll_change (s.cc_counts k (s.word_to_class w))
            (s.cc_counts k (s.word_to_class w) - s.cw_counts k w
              + s.wc_counts w (s.word_to_class w) - s.ww_counts w w)
        + ll_change (s.cc_counts (s.word_to_class w) (s.word_to_class w))
            (s.cc_counts (s.word_to_class w) (s.word_to_class w)
              - s.wc_counts w (s.word_to_class w)
              - s.cw_counts (s.word_to_class w) w + s.ww_counts w w)
        + ll_change (s.cc_counts k k)
            (s.cc_counts k k + s.wc_counts w k + s.cw_counts k w + s.ww_counts w w) := by
  have hok : s.word_to_class w ≠ k := Ne.symm hk
  have hs' := move_consistent hs w k
  have hn' : NonnegData (move s w k) := move_nonneg hn w k
  set o := s.word_to_class w with ho
  -- the eight kinds of modified cells
  have c1 : ∀ X, X ≠ o → X ≠ k → (move s w k).cc_counts o X
      = s.cc_counts o X - s.wc_counts w X := by
    intro X hXo hXk
    rw [move_cc_counts, if_pos rfl, if_neg hok, if_neg (by rw [← ho]; exact hXo),
      if_neg hXk, if_neg (by rw [← ho]; exact fun h => hXo h.2),
      if_neg (fun h => hok h.1), wc_eq_rightSum hs w X (by rw [← ho]; exact fun h => hXo h.symm)]
    ring
  have c2 : ∀ X, X ≠ o → X ≠ k → (move s w k).cc_counts k X
      = s.cc_counts k X + s.wc_counts w X := by
    intro X hXo hXk
    rw [move_cc_counts, if_neg (by rw [← ho]; exact hk), if_pos rfl,
      if_neg (by rw [← ho]; exact hXo), if_neg hXk,
      if_neg (by rw [← ho]; exact fun h => hk h.1), if_neg (fun h => hXk h.2),
      wc_eq_rightSum hs w X (by rw [← ho]; exact fun h => hXo h.symm)]
    ring
  have c3 : ∀ X, X ≠ o → X ≠ k → (move s w k).cc_counts X o
      = s.cc_counts X o - s.cw_counts X w := by
    intro X hXo hXk
    rw [move_cc_counts, if_neg (by rw [← ho]; exact hXo), if_neg hXk, if_pos rfl,
      if_neg hok, if_neg (by rw [← ho]; exact fun h => hXo h.1),
      if_neg (fun h => hok h.2),
      cw_eq_leftSum hs w X (by rw [← ho]; exact fun h => hXo h.symm)]
    ring
  have c4 : ∀ X, X ≠ o → X ≠ k → (move s w k).cc_counts X k
      = s.cc_counts X k + s.cw_counts X w := by
    intro X hXo hXk
    rw [move_cc_counts, if_neg (by rw [← ho]; exact hXo), if_neg hXk,
      if_neg (by rw [← ho]; exact hk), if_pos rfl,
      if_neg (by rw [← ho]; exact fun h => hXo h.1), if_neg (fun h => hXk h.1),
      cw_eq_leftSum hs w X (by rw [← ho]; exact fun h => hXo h.symm)]
    ring
  have c5 : (move s w k).cc_counts o k
      = s.cc_counts o k - s.wc_counts w k + s.cw_counts o w - s.ww_counts w w := by
    rw [move_cc_counts, if_pos rfl, if_neg hok, if_neg (by rw [← ho]; exact hk),
      if_pos rfl, if_neg (by rw [← ho]; exact fun h => hk h.2),
      if_neg (fun h => hok h.1),
      wc_eq_rightSum hs w k (by rw [← ho]; exact hok), cw_self_eq hs w, ← ho]
    ring
  have c6 : (move s w k).cc_counts k o
      = s.cc_counts k o - s.cw_counts k w + s.wc_counts w o - s.ww_counts w w := by
    rw [move_cc_counts, if_neg (by rw [← ho]; exact hk), if_pos rfl, if_pos rfl,
      if_neg hok, if_neg (by rw [← ho]; exact fun h => hk h.1),
      if_neg (fun h => hok h.2),
      cw_eq_leftSum hs w k (by rw [← ho]; exact hok), wc_self_eq hs w, ← ho]
    ring
  have c7 : (move s w k).cc_counts o o
      = s.cc_counts o o - s.wc_counts w o - s.cw_counts o w + s.ww_counts w w := by
    rw [move_cc_counts, if_pos rfl, if_neg hok, if_pos rfl, if_neg hok,
      if_pos ⟨rfl, rfl⟩, if_neg (fun h => hok h.1),
      wc_self_eq hs w, cw_self_eq hs w, ← ho]
    ring
  have c8 : (move s w k).cc_counts k k
      = s.cc_counts k k + s.wc_counts w k + s.cw_counts k w + s.ww_counts w w := by
    rw [move_cc_counts, if_neg (by rw [← ho]; exact hk), if_pos rfl,
      if_neg (by rw [← ho]; exact hk), if_pos rfl,
      if_neg (by rw [← ho]; exact fun h => hk h.1), if_pos ⟨rfl, rfl⟩,
      wc_eq_rightSum hs w k (by rw [← ho]; exact hok),
      cw_eq_leftSum hs w k (by rw [← ho]; exact hok)]
    ring
  have c0 : ∀ a b, a ≠ o → a ≠ k → b ≠ o → b ≠ k →
      (move s w k).cc_counts a b = s.cc_counts a b := by
    intro a b hao hak hbo hbk
    rw [move_cc_counts, if_neg (by rw [← ho]; exact hao), if_neg hak,
      if_neg (by rw [← ho]; exact hbo), if_neg hbk,
      if_neg (by rw [← ho]; exact fun h => hao h.1), if_neg (fun h => hak h.1)]
    ring
  -- all old and new cell values are non-negative
  have hccn : ∀ a b, (0 : ℤ) ≤ s.cc_counts a b := cc_counts_nonneg hs hn
  have hccn' : ∀ a b, (0 : ℤ) ≤ (move s w k).cc_counts a b := cc_counts_nonneg hs' hn'
  -- a reusable splitting of the double sum
  have Hsplit : ∀ F : Fin C → Fin C → ℝ, (∑ a, ∑ b, F a b)
      = F o o + F o k + (∑ X ∈ (Finset.univ.erase o).erase k, F o X)
        + (F k o + F k k + ∑ X ∈ (Finset.univ.erase o).erase k, F k X)
        + ∑ a ∈ (Finset.univ.erase o).erase k,
            (F a o + F a k + ∑ b ∈ (Finset.univ.erase o).erase k, F a b) := by
    intro F
    rw [sum_split2 hok (fun a => ∑ b, F a b), sum_split2 hok (F o), sum_split2 hok (F k),
      Finset.sum_congr rfl (fun a _ => sum_split2 hok (F a))]
  rw [Hsplit (fun a b => mllTerm ((move s w k).cc_counts a b)),
    Hsplit (fun a b => mllTerm (s.cc_counts a b))]
  rw [sum_ite_ne hok, sum_ite_ne hok]
  -- rewrite the moved cells
  rw [c5, c6, c7, c8]
  have hrow : (∑ X ∈ (Finset.univ.erase o).erase k,
      mllTerm ((move s w k).cc_counts o X))
      = ∑ X ∈ (Finset.univ.erase o).erase k,
        (mllTerm (s.cc_counts o X) + ll_change (s.cc_counts o X)
          (s.cc_counts o X - s.wc_counts w X)) := by
    refine Finset.sum_congr rfl fun X hX => ?_
    rcases Finset.mem_erase.mp hX with ⟨hXk, hX'⟩
    rcases Finset.mem_erase.mp hX' with ⟨hXo, -⟩
    have hnew : (0:ℤ) ≤ s.cc_counts o X - s.wc_counts w X := by
      rw [← c1 X hXo hXk]; exact hccn' o X
    rw [c1 X hXo hXk, ll_change_eq (hccn o X) hnew]
    ring
  have hrowk : (∑ X ∈ (Finset.univ.erase o).erase k,
      mllTerm ((move s w k).cc_counts k X))
      = ∑ X ∈ (Finset.univ.erase o).erase k,
        (mllTerm (s.cc_counts k X) + ll_change (s.cc_counts k X)
          (s.cc_counts k X + s.wc_counts w X)) := by
    refine Finset.sum_congr rfl fun X hX => ?_
    rcases Finset.mem_erase.mp hX with ⟨hXk, hX'⟩
    rcases Finset.mem_erase.mp hX' with ⟨hXo, -⟩
    have hnew : (0:ℤ) ≤ s.cc_counts k X + s.wc_counts w X := by
      rw [← c2 X hXo hXk]; exact hccn' k X
    rw [c2 X hXo hXk, ll_change_eq (hccn k X) hnew]
    ring
  have hcolrest : (∑ a ∈ (Finset.univ.erase o).erase k,
      (mllTerm ((move s w k).cc_counts a o) + mllTerm ((move s w k).cc_counts a k)
        + ∑ b ∈ (Finset.univ.erase o).erase k, mllTerm ((move s w k).cc_counts a b)))
      = ∑ a ∈ (Finset.univ.erase o).erase k,
        ((mllTerm (s.cc_counts a o) + ll_change (s.cc_counts a o)
            (s.cc_counts a o - s.cw_counts a w))
          + (mllTerm (s.cc_counts a k) + ll_change (s.cc_counts a k)
            (s.cc_counts a k + s.cw_counts a w))
          + ∑ b ∈ (Finset.univ.erase o).erase k, mllTerm (s.cc_counts a b)) := by
    refine Finset.sum_congr rfl fun a ha => ?_
    rcases Finset.mem_erase.mp ha with ⟨hak, ha'⟩
    rcases Finset.mem_erase.mp ha' with ⟨hao, -⟩
    have hnewo : (0:ℤ) ≤ s.cc_counts a o - s.cw_counts a w := by
      rw [← c3 a hao hak]; exact hccn' a o
    have hnewk : (0:ℤ) ≤ s.cc_counts a k + s.cw_counts a w := by
      rw [← c4 a hao hak]; exact hccn' a k
    have hinner : (∑ b ∈ (Finset.univ.erase o).erase k,
        mllTerm ((move s w k).cc_counts a b))
        = ∑ b ∈ (Finset.univ.erase o).erase k, mllTerm (s.cc_counts a b) := by
      refine Finset.sum_congr rfl fun b hb => ?_
      rcases Finset.mem_erase.mp hb with ⟨hbk, hb'⟩
      rcases Finset.mem_erase.mp hb' with ⟨hbo, -⟩
      rw [c0 a b hao hak hbo hbk]
    rw [c3 a hao hak, c4 a hao hak, hinner,
      ll_change_eq (hccn a o) hnewo, ll_change_eq (hccn a k) hnewk]
    ring
  rw [hrow, hrowk, hcolrest]
  -- the four special cells, via `ll_change_eq`
  have h5n : (0:ℤ) ≤ s.cc_counts o k - s.wc_counts w k + s.cw_counts o w
      - s.ww_counts w w := by rw [← c5]; exact hccn' o k
  have h6n : (0:ℤ) ≤ s.cc_counts k o - s.cw_counts k w + s.wc_counts w o
      - s.ww_counts w w := by rw [← c6]; exact hccn' k o
  have h7n : (0:ℤ) ≤ s.cc_counts o o - s.wc_counts w o - s.cw_counts o w
      + s.ww_counts w w := by rw [← c7]; exact hccn' o o
  have h8n : (0:ℤ) ≤ s.cc_counts k k + s.wc_counts w k + s.cw_counts k w
      + s.ww_counts w w := by rw [← c8]; exact hccn' k k
  rw [ll_change_eq (hccn o k) h5n, ll_change_eq (hccn k o) h6n,
    ll_change_eq (hccn o o) h7n, ll_change_eq (hccn k k) h8n]
  simp only [Finset.sum_add_distrib]
  ring

/-- The incremental delta of `_evaluate_move` (under the intended
iteration, see `evaluate_move`) is exact: applying the move and
recomputing the full log-likelihood gives exactly the old likelihood
plus the delta.  Over `ℝ` the identity is exact, with no tolerance. -/
lemma evaluate_move_delta {s : CountStore V C} (hs : Consistent s) (hn : NonnegData s)
    (w : Fin V) (k : Fin C) (hk : k ≠ s.word_to_class w) :
    log_likelihood (move s w k) = log_likelihood s + evaluate_move s w k := by
  unfold log_likelihood
  rw [cc_sum_delta hs hn w k hk, class_sum_delta s w k hk]
  simp only [move_word_counts]
  have hco := class_counts_nonneg hs hn (s.word_to_class w)
  have hcov : (0:ℤ) ≤ s.class_counts (s.word_to_class w) - s.word_counts w :=
    sub_nonneg.mpr (word_count_le_class_count hs hn w)
  have hck2 := class_counts_nonneg hs hn k
  have hckv : (0:ℤ) ≤ s.class_counts k + s.word_counts w :=
    add_nonneg hck2 (hn.1 w)
  simp only [evaluate_move]
  rw [mllTerm_of_nonneg hco, mllTerm_of_nonneg hcov, mllTerm_of_nonneg hck2,
    mllTerm_of_nonneg hckv]
  ring

/-! ### Float semantics of `_evaluate_move`: the only NaN source is the
unguarded class-count terms -/

lemma coe_finsetSum {α : Type _} (s : Finset α) (f : α → ℝ) :
    (∑ x ∈ s, ((f x : ℝ) : WithBot ℝ)) = ((∑ x ∈ s, f x : ℝ) : WithBot ℝ) := by
  induction s using Finset.cons_induction with
  | empty => simp
  | cons a s ha ih => rw [Finset.sum_cons, Finset.sum_cons, ih, WithBot.coe_add]

lemma floatLogTerm_pos {c : ℤ} (coeff : ℝ) (hc : 0 < c) :
    floatLogTerm coeff c = ((coeff * (c : ℝ) * Real.log c : ℝ) : WithBot ℝ) :=
  if_pos hc

lemma floatLogTerm_bot {c : ℤ} (coeff : ℝ) (hc : ¬ 0 < c) :
    floatLogTerm coeff c = ⊥ :=
  if_neg hc

lemma floatLlChange_coe {o n : ℤ} (ho : 0 ≤ o) (hn : 0 ≤ n) :
    floatLlChange o n = ((ll_change o n : ℝ) : WithBot ℝ) := by
  unfold floatLlChange ll_change
  by_cases h1 : o = 0 <;> by_cases h2 : n = 0
  · rw [if_pos h1, if_pos h2, if_pos h1, if_pos h2, ← WithBot.coe_add]
  · have h2' : (0:ℤ) < n := by omega
    rw [if_pos h1, if_neg h2, if_pos h1, if_neg h2, floatLogTerm_pos _ h2',
      ← WithBot.coe_add]
    congr 1
    ring
  · have h1' : (0:ℤ) < o := by omega
    rw [if_neg h1, if_pos h2, if_neg h1, if_pos h2, floatLogTerm_pos _ h1',
      ← WithBot.coe_add]
    congr 1
    ring
  · have h1' : (0:ℤ) < o := by omega
    have h2' : (0:ℤ) < n := by omega
    rw [if_neg h1, if_neg h2, if_neg h1, if_neg h2, floatLogTerm_pos _ h1',
      floatLogTerm_pos _ h2', ← WithBot.coe_add]
    congr 1
    ring

/-- The float value of `_evaluate_move` is NaN exactly when one of the
four unguarded `class_counts` log arguments (lines 135-144) is zero;
otherwise it is the exact real delta.  In particular every `_ll_change`
cell term of the move delta is well defined (zero counts contribute an
exact `0`). -/
lemma evaluateMoveFloat_spec {s : CountStore V C} (hs : Consistent s) (hn : NonnegData s)
    (w : Fin V) (k : Fin C) (hk : k ≠ s.word_to_class w) :
    evaluateMoveFloat s w k
      = if nanCondition s w k then ⊥ else ((evaluate_move s w k : ℝ) : WithBot ℝ) := by
  have hok : s.word_to_class w ≠ k := Ne.symm hk
  by_cases hnan : nanCondition s w k
  · rw [if_pos hnan]
    simp only [evaluateMoveFloat]
    rcases hnan with h | h | h | h
    · rw [h]
      simp [floatLogTerm, WithBot.add_bot, WithBot.bot_add]
    · rw [h]
      simp [floatLogTerm, WithBot.add_bot, WithBot.bot_add]
    · rw [h]
      simp [floatLogTerm, WithBot.add_bot, WithBot.bot_add]
    · rw [h]
      simp [floatLogTerm, WithBot.add_bot, WithBot.bot_add]
  · rw [if_neg hnan]
    have hs' := move_consistent hs w k
    have hn' : NonnegData (move s w k) := move_nonneg hn w k
    have hccn : ∀ a b, (0 : ℤ) ≤ s.cc_counts a b := cc_counts_nonneg hs hn
    have hccn' : ∀ a b, (0 : ℤ) ≤ (move s w k).cc_counts a b := cc_counts_nonneg hs' hn'
    set o := s.word_to_class w with ho
    -- the four class-count arguments are positive
    unfold nanCondition at hnan
    push_neg at hnan
    obtain ⟨hz1, hz2, hz3, hz4⟩ := hnan
    rw [← ho] at hz1 hz2
    have hp1 : (0:ℤ) < s.class_counts o := by
      have := class_counts_nonneg hs hn o
      omega
    have hp2 : (0:ℤ) < s.class_counts o - s.word_counts w := by
      have hle : s.word_counts w ≤ s.class_counts o := by
        rw [ho]
        exact word_count_le_class_count hs hn w
      omega
    have hp3 : (0:ℤ) < s.class_counts k := by
      have := class_counts_nonneg hs hn k
      omega
    have hp4 : (0:ℤ) < s.class_counts k + s.word_counts w := by
      have h1 := class_counts_nonneg hs hn k
      have h2 := hn.1 w
      omega
    -- the modified cells (as in `cc_sum_delta`), giving non-negativity of
    -- every `_ll_change` argument
    have c1 : ∀ X, X ≠ o → X ≠ k → (move s w k).cc_counts o X
        = s.cc_counts o X - s.wc_counts w X := by
      intro X hXo hXk
      rw [move_cc_counts, if_pos rfl, if_neg hok, if_neg (by rw [← ho]; exact hXo),
        if_neg hXk, if_neg (by rw [← ho]; exact fun h => hXo h.2),
        if_neg (fun h => hok h.1),
        wc_eq_rightSum hs w X (by rw [← ho]; exact fun h => hXo h.symm)]
      ring
    have c2 : ∀ X, X ≠ o → X ≠ k → (move s w k).cc_counts k X
        = s.cc_counts k X + s.wc_counts w X := by
      intro X hXo hXk
      rw [move_cc_counts, if_neg (by rw [← ho]; exact hk), if_pos rfl,
        if_neg (by rw [← ho]; exact hXo), if_neg hXk,
        if_neg (by rw [← ho]; exact fun h => hk h.1), if_neg (fun h => hXk h.2),
        wc_eq_rightSum hs w X (by rw [← ho]; exact fun h => hXo h.symm)]
      ring
    have c3 : ∀ X, X ≠ o → X ≠ k → (move s w k).cc_counts X o
        = s.cc_counts X o - s.cw_counts X w := by
      intro X hXo hXk
      rw [move_cc_counts, if_neg (by rw [← ho]; exact hXo), if_neg hXk, if_pos rfl,
        if_neg hok, if_neg (by rw [← ho]; exact fun h => hXo h.1),
        if_neg (fun h => hok h.2),
        cw_eq_leftSum hs w X (by rw [← ho]; exact fun h => hXo h.symm)]
      ring
    have c4 : ∀ X, X ≠ o → X ≠ k → (move s w k).cc_counts X k
        = s.cc_counts X k + s.cw_counts X w := by
      intro X hXo hXk
      rw [move_cc_counts, if_neg (by rw [← ho]; exact hXo), if_neg hXk,
        if_neg (by rw [← ho]; exact hk), if_pos rfl,
        if_neg (by rw [← ho]; exact fun h => hXo h.1), if_neg (fun h => hXk h.1),
        cw_eq_leftSum hs w X (by rw [← ho]; exact fun h => hXo h.symm)]
      ring
    have c5 : (move s w k).cc_counts o k
        = s.cc_counts o k - s.wc_counts w k + s.cw_counts o w - s.ww_counts w w := by
      rw [move_cc_counts, if_pos rfl, if_neg hok, if_neg (by rw [← ho]; exact hk),
        if_pos rfl, if_neg (by rw [← ho]; exact fun h => hk h.2),
        if_neg (fun h => hok h.1),
        wc_eq_rightSum hs w k (by rw [← ho]; exact hok), cw_self_eq hs w, ← ho]
      ring
    have c6 : (move s w k).cc_counts k o
        = s.cc_counts k o - s.cw_counts k w + s.wc_counts w o - s.ww_counts w w := by
      rw [move_cc_counts, if_neg (by rw [← ho]; exact hk), if_pos rfl, if_pos rfl,
        if_neg hok, if_neg (by rw [← ho]; exact fun h => hk h.1),
        if_neg (fun h => hok h.2),
        cw_eq_leftSum hs w k (by rw [← ho]; exact hok), wc_self_eq hs w, ← ho]
      ring
    have c7 : (move s w k).cc_counts o o
        = s.cc_counts o o - s.wc_counts w o - s.cw_counts o w + s.ww_counts w w := by
      rw [move_cc_counts, if_pos rfl, if_neg hok, if_pos rfl, if_neg hok,
        if_pos ⟨rfl, rfl⟩, if_neg (fun h => hok h.1),
        wc_self_eq hs w, cw_self_eq hs w, ← ho]
      ring
    have c8 : (move s w k).cc_counts k k
        = s.cc_counts k k + s.wc_counts w k + s.cw_counts k w + s.ww_counts w w := by
      rw [move_cc_counts, if_neg (by rw [← ho]; exact hk), if_pos rfl,
        if_neg (by rw [← ho]; exact hk), if_pos rfl,
        if_neg (by rw [← ho]; exact fun h => hk h.1), if_pos ⟨rfl, rfl⟩,
        wc_eq_rightSum hs w k (by rw [← ho]; exact hok),
        cw_eq_leftSum hs w k (by rw [← ho]; exact hok)]
      ring
    simp only [evaluateMoveFloat, evaluate_move, ← ho]
    -- first loop sum
    have hsum1 : (∑ X : Fin C, if X ≠ o ∧ X ≠ k then
          floatLlChange (s.cc_counts o X) (s.cc_counts o X - s.wc_counts w X)
            + floatLlChange (s.cc_counts k X) (s.cc_counts k X + s.wc_counts w X)
        else ((0 : ℝ) : WithBot ℝ))
        = ((∑ X : Fin C, if X ≠ o ∧ X ≠ k then
            ll_change (s.cc_counts o X) (s.cc_counts o X - s.wc_counts w X)
              + ll_change (s.cc_counts k X) (s.cc_counts k X + s.wc_counts w X)
          else (0:ℝ) : ℝ) : WithBot ℝ) := by
      rw [← coe_finsetSum]
      refine Finset.sum_congr rfl fun X _ => ?_
      by_cases hc : X ≠ o ∧ X ≠ k
      · rw [if_pos hc, if_pos hc]
        have hn1 : (0:ℤ) ≤ s.cc_counts o X - s.wc_counts w X := by
          rw [← c1 X hc.1 hc.2]; exact hccn' o X
        have hn2 : (0:ℤ) ≤ s.cc_counts k X + s.wc_counts w X := by
          rw [← c2 X hc.1 hc.2]; exact hccn' k X
        rw [floatLlChange_coe (hccn o X) hn1, floatLlChange_coe (hccn k X) hn2,
          ← WithBot.coe_add]
      · rw [if_neg hc, if_neg hc]
    -- second loop sum
    have hsum2 : (∑ X : Fin C, if X ≠ o ∧ X ≠ k then
          floatLlChange (s.cc_counts X o) (s.cc_counts X o - s.cw_counts X w)
            + floatLlChange (s.cc_counts X k) (s.cc_counts X k + s.cw_counts X w)
        else ((0 : ℝ) : WithBot ℝ))
        = ((∑ X : Fin C, if X ≠ o ∧ X ≠ k then
            ll_change (s.cc_counts X o) (s.cc_counts X o - s.cw_counts X w)
              + ll_change (s.cc_counts X k) (s.cc_counts X k + s.cw_counts X w)
          else (0:ℝ) : ℝ) : WithBot ℝ) := by
      rw [← coe_finsetSum]
      refine Finset.sum_congr rfl fun X _ => ?_
      by_cases hc : X ≠ o ∧ X ≠ k
      · rw [if_pos hc, if_pos hc]
        have hn1 : (0:ℤ) ≤ s.cc_counts X o - s.cw_counts X w := by
          rw [← c3 X hc.1 hc.2]; exact hccn' X o
        have hn2 : (0:ℤ) ≤ s.cc_counts X k + s.cw_counts X w := by
          rw [← c4 X hc.1 hc.2]; exact hccn' X k
        rw [floatLlChange_coe (hccn X o) hn1, floatLlChange_coe (hccn X k) hn2,
          ← WithBot.coe_add]
      · rw [if_neg hc, if_neg hc]
    have h5n : (0:ℤ) ≤ s.cc_counts o k - s.wc_counts w k + s.cw_counts o w
        - s.ww_counts w w := by rw [← c5]; exact hccn' o k
    have h6n : (0:ℤ) ≤ s.cc_counts k o - s.cw_counts k w + s.wc_counts w o
        - s.ww_counts w w := by rw [← c6]; exact hccn' k o
    have h7n : (0:ℤ) ≤ s.cc_counts o o - s.wc_counts w o - s.cw_counts o w
        + s.ww_counts w w := by rw [← c7]; exact hccn' o o
    have h8n : (0:ℤ) ≤ s.cc_counts k k + s.wc_counts w k + s.cw_counts k w
        + s.ww_counts w w := by rw [← c8]; exact hccn' k k
    rw [hsum1, hsum2,
      floatLlChange_coe (hccn o k) h5n, floatLlChange_coe (hccn k o) h6n,
      floatLlChange_coe (hccn o o) h7n, floatLlChange_coe (hccn k k) h8n,
      floatLogTerm_pos 2 hp1, floatLogTerm_pos (-2) hp2, floatLogTerm_pos 2 hp3,
      floatLogTerm_pos (-2) hp4]
    simp only [← WithBot.coe_add]
    congr 1
    ring

/-! ### Concrete evaluations used by the counterexamples -/

lemma exSelf_self_move_value :
    evaluate_move exSelf 3 (exSelf.word_to_class 3)
      = 8 * Real.log 2 - 6 * Real.log 3 := by
  have h : exSelf.word_to_class 3 = 3 := by decide
  rw [h]
  simp only [evaluate_move, exSelf]
  norm_num [ll_change, Fin.sum_univ_four, Real.log_one, Matrix.cons_val_three,
    Matrix.cons_val_zero, Matrix.cons_val_one, Matrix.head_cons]
  ring

lemma eight_log_two_ne_six_log_three : 8 * Real.log 2 - 6 * Real.log 3 ≠ 0 := by
  have h16 : Real.log 16 < Real.log 27 := Real.log_lt_log (by norm_num) (by norm_num)
  have h2 : Real.log 16 = 4 * Real.log 2 := by
    rw [show (16 : ℝ) = 2 ^ (4:ℕ) by norm_num, Real.log_pow]
    norm_num
  have h3 : Real.log 27 = 3 * Real.log 3 := by
    rw [show (27 : ℝ) = 3 ^ (3:ℕ) by norm_num, Real.log_pow]
    norm_num
  intro habs
  rw [h2, h3] at h16
  linarith

lemma wordId_ne (vocab : List String) {x y : String} (hx : x ∈ vocab) (hy : y ∈ vocab)
    (hxy : x ≠ y) : wordId vocab x ≠ wordId vocab y :=
  fun h => hxy ((List.indexOf_inj hx hy).mp h)

/-! ## The claims

Each claim of the specification is settled by exactly one theorem below
(plus a witness or counterexample where required). -/

/-- C1.  The spec's delta-correctness round-trip law presupposes that
`_evaluate_move` returns a delta.  As written it never does: lines 146
and 162 destructure the scalars of a 1-D NumPy row and raise
`TypeError` on every call (the row has `C > 0` entries), so the law
fails for the code as it stands.  This theorem evaluates the faithful
runtime model: every call errors.  (The law itself, stated for the
evidently intended iteration, is proved exactly in
`evaluate_move_delta`.) -/
theorem evaluate_move_raises_typeerror {V C : ℕ} (s : CountStore V C)
    (w : Fin V) (k : Fin C) :
    evaluate_move_run s w k
      = Except.error "TypeError: cannot unpack non-iterable numpy.int64 object" := by
  simp only [evaluate_move_run]
  rw [if_pos k.pos]

/-- C2.  `_move` keeps all five derived tables equal to the
re-aggregation of the raw statistics under the updated assignment, and
`class_to_words` the exact inverse of `word_to_class`. -/
theorem move_preserves_consistency {V C : ℕ} (s : CountStore V C)
    (hs : Consistent s) (w : Fin V) (k : Fin C) :
    Consistent (move s w k) :=
  move_consistent hs w k

theorem move_preserves_consistency_witness :
    Consistent exTiny ∧ Consistent (move exTiny ⟨3, by decide⟩ ⟨0, by decide⟩) :=
  ⟨by decide, move_preserves_consistency exTiny (by decide) ⟨3, by decide⟩ ⟨0, by decide⟩⟩

/-- C3 (counterexample).  At the state constructed from the corpus
`["a b a", "b a b"]` — reachable via the empty move sequence — the
`ww_counts` total is `8` while the token count `N` is `10`: each line
contributes one fewer bigram than tokens (there is no `</s> → <s>`
loop), so `Σ ww_counts = N` is false. -/
theorem reachable_ww_sum_ne_tokens :
    ReachableFrom (initialState tinyVocab tinyCorpus w2cTiny) exTiny ∧
    (∑ i, ∑ j, exTiny.ww_counts i j) = 8 ∧
    (totalTokens tinyVocab tinyCorpus : ℤ) = 10 ∧
    (∑ i, ∑ j, exTiny.ww_counts i j) ≠ (totalTokens tinyVocab tinyCorpus : ℤ) :=
  ⟨ReachableFrom.refl, by decide, by decide, by decide⟩

/-- C3 (as amended).  Along any sequence of moves from a constructed
state: `Σ class_counts = Σ word_counts = N` (the token count including
the injected `<s>`/`</s>`/`<UNK>`), and `Σ cc_counts = Σ ww_counts =
N − L` where `L` is the number of corpus lines. -/
theorem conservation_along_moves (vocab : List String)
    (corpus : List (List String))
    (h1 : "<s>" ∈ vocab) (h2 : "</s>" ∈ vocab) (h3 : "<UNK>" ∈ vocab)
    {C : ℕ} (w2c : Fin vocab.length → Fin C) (s : CountStore vocab.length C)
    (h : ReachableFrom (initialState vocab corpus w2c) s) :
    (∑ c, s.class_counts c = ∑ i, s.word_counts i) ∧
    ((∑ i, s.word_counts i) = totalTokens vocab corpus) ∧
    (∑ a, ∑ b, s.cc_counts a b = ∑ i, ∑ j, s.ww_counts i j) ∧
    ((∑ i, ∑ j, s.ww_counts i j) + corpus.length = totalTokens vocab corpus) :=
  reachable_conservation vocab corpus h1 h2 h3 w2c s h

theorem conservation_along_moves_witness :
    ("<s>" ∈ tinyVocab ∧ "</s>" ∈ tinyVocab ∧ "<UNK>" ∈ tinyVocab) ∧
    ((∑ c, exTiny.class_counts c = ∑ i, exTiny.word_counts i) ∧
      ((∑ i, exTiny.word_counts i) = totalTokens tinyVocab tinyCorpus) ∧
      (∑ a, ∑ b, exTiny.cc_counts a b = ∑ i, ∑ j, exTiny.ww_counts i j) ∧
      ((∑ i, ∑ j, exTiny.ww_counts i j) + tinyCorpus.length
        = totalTokens tinyVocab tinyCorpus)) :=
  ⟨⟨by decide, by decide, by decide⟩,
    conservation_along_moves tinyVocab tinyCorpus (by decide) (by decide) (by decide)
      w2cTiny exTiny ReachableFrom.refl⟩

/-- C4.  The initial class assignment is not round-robin.  On the
corpus `["a b b"]` with `num_classes = 2` (5 classes in all), the two
non-reserved words, taken in ascending count order (`a` then `b`),
should land in classes 3 and 4; the advancement expression
`min((class_id + 1) % num_classes, 3)` of line 93 can never exceed 3,
so both land in class 3 (and class 4 stays empty). -/
theorem freq_init_degenerate_assignment :
    freqInit tinyVocab skewCorpus 2
        = Except.ok [(0, 0), (1, 1), (2, 2), (3, 3), (4, 3)] ∧
    freqInit tinyVocab skewCorpus 2
        ≠ Except.ok [(0, 0), (1, 1), (2, 2), (3, 3), (4, 4)] := by
  have h : freqInit tinyVocab skewCorpus 2
      = Except.ok [(0, 0), (1, 1), (2, 2), (3, 3), (4, 3)] := rfl
  refine ⟨h, fun habs => ?_⟩
  rw [h] at habs
  have := Except.ok.inj habs
  simp at this

/-- C5.  Moving a word from class `A` to `B` and back to `A` restores
every table to its exact pre-move value, and hence restores the full
log-likelihood exactly. -/
theorem move_roundtrip_restores_state {V C : ℕ} (s : CountStore V C)
    (hs : Consistent s) (w : Fin V) (k : Fin C) :
    move (move s w k) w (s.word_to_class w) = s ∧
    log_likelihood (move (move s w k) w (s.word_to_class w)) = log_likelihood s :=
  ⟨move_move_cancel hs w k, by rw [move_move_cancel hs w k]⟩

theorem move_roundtrip_restores_state_witness :
    Consistent exTiny ∧
    (move (move exTiny ⟨3, by decide⟩ ⟨1, by decide⟩) ⟨3, by decide⟩
        (exTiny.word_to_class ⟨3, by decide⟩) = exTiny ∧
      log_likelihood (move (move exTiny ⟨3, by decide⟩ ⟨1, by decide⟩) ⟨3, by decide⟩
        (exTiny.word_to_class ⟨3, by decide⟩)) = log_likelihood exTiny) :=
  ⟨by decide, move_roundtrip_restores_state exTiny (by decide) ⟨3, by decide⟩ ⟨1, by decide⟩⟩

/-- C6 (counterexample).  Evaluating a move of a word to its own class
does not return `0`: the code has no same-class special case.  On
`exSelf` (word 3 in class 3, both with count data making every bigram
term vanish) the intended-iteration value is `8·ln 2 − 6·ln 3 ≠ 0`.
(The literal code raises `TypeError` instead — see
`evaluate_move_raises_typeerror` — which is not `0` either.) -/
theorem self_move_delta_nonzero :
    Consistent exSelf ∧
    evaluate_move exSelf 3 (exSelf.word_to_class 3) ≠ 0 :=
  ⟨by decide, by
    rw [exSelf_self_move_value]
    exact eight_log_two_ne_six_log_three⟩

/-- C6 (as amended).  Applying a self-move leaves every table unchanged
(`_move(word, current_class)` is the identity on consistent states);
evaluating a self-move is not special-cased and need not return `0`. -/
theorem self_move_applies_as_noop {V C : ℕ} (s : CountStore V C)
    (hs : Consistent s) (w : Fin V) :
    move s w (s.word_to_class w) = s :=
  move_self hs w

theorem self_move_applies_as_noop_witness :
    Consistent exTiny ∧
    move exTiny ⟨4, by decide⟩ (exTiny.word_to_class ⟨4, by decide⟩) = exTiny :=
  ⟨by decide, self_move_applies_as_noop exTiny (by decide) ⟨4, by decide⟩⟩

/-- C7 (counterexample).  The constructed tiny-corpus state is
consistent with non-negative counts, yet evaluating a move of word `a`
into class 2 — the class of the unseen `<UNK>`, whose count is 0 —
yields NaN: line 143 computes `2 * 0 * numpy.log(0) = NaN` with no zero
guard, so a zero count does not contribute 0 and the NaN propagates. -/
theorem evaluate_move_nan_on_empty_class :
    Consistent exTiny ∧ NonnegData exTiny ∧
    evaluateMoveFloat exTiny ⟨3, by decide⟩ ⟨2, by decide⟩ = ⊥ :=
  ⟨by decide, by decide, by
    rw [evaluateMoveFloat_spec (by decide) (by decide) _ _ (by decide),
      if_pos (by decide)]⟩

/-- C7 (as amended).  In the full log-likelihood every non-positive
count is masked and contributes exactly 0; in `_evaluate_move` every
per-cell `_ll_change` term likewise treats a 0 count as contributing an
exact 0 — but the four `class_counts` terms of lines 135-144 are
unguarded, so the float result is NaN exactly when one of those four
arguments is zero, and equals the exact real delta otherwise. -/
theorem zero_count_handling :
    (∀ n : ℤ, n ≤ 0 → mllTerm n = 0) ∧
    (∀ (V C : ℕ) (s : CountStore V C) (w : Fin V) (k : Fin C),
      Consistent s → NonnegData s → k ≠ s.word_to_class w →
      evaluateMoveFloat s w k
        = if nanCondition s w k then ⊥ else ((evaluate_move s w k : ℝ) : WithBot ℝ)) :=
  ⟨fun n hn => by unfold mllTerm; rw [if_pos hn],
    fun _ _ s w k hs hn hk => evaluateMoveFloat_spec hs hn w k hk⟩

theorem zero_count_handling_witness :
    mllTerm 0 = 0 ∧
    evaluateMoveFloat exSelf 3 0
      = if nanCondition exSelf 3 0 then ⊥
        else ((evaluate_move exSelf 3 0 : ℝ) : WithBot ℝ) :=
  ⟨zero_count_handling.1 0 le_rfl,
    zero_count_handling.2 5 4 exSelf 3 0 (by decide) (by decide) (by decide)⟩

/-- C8 (counterexample).  Construction does not fail when the class
count exceeds the vocabulary size: with `num_classes = 10` the total
class count is 13 > 5 = V, yet `_freq_init_classes` succeeds and a
count store is produced. -/
theorem construction_accepts_more_classes_than_words :
    (tinyVocab.length : ℤ) < numClassesTotal 10 ∧
    (freqInit tinyVocab tinyCorpus 10).isOk = true :=
  ⟨by decide, rfl⟩

/-- C8 (as amended).  Construction performs no validation: any positive
`num_classes` succeeds, also when `C` exceeds `V` (surplus classes stay
empty); a non-positive `num_classes` makes the class-assignment loop
raise an uncaught `IndexError` as soon as there is a non-reserved word
to place — an index error, not a checked configuration error — and
even succeeds when every word is reserved. -/
theorem freq_init_failure_characterization :
    (∀ (vocab : List String) (corpus : List (List String)) (n : ℤ),
      0 < n → (freqInit vocab corpus n).isOk = true) ∧
    (∀ (vocab : List String) (corpus : List (List String)) (n : ℤ),
      n ≤ 0 →
      ((sortedWordIds vocab corpus).filter fun w => w ∉ specialIds vocab) ≠ [] →
      (freqInit vocab corpus n).isOk = false) :=
  ⟨fun vocab corpus n hn => freqInit_isOk vocab corpus n hn,
    fun vocab corpus n hn hne => freqInit_error vocab corpus n hn hne⟩

theorem freq_init_failure_characterization_witness :
    ((0:ℤ) < 5 ∧ (freqInit tinyVocab tinyCorpus 5).isOk = true) ∧
    ((0:ℤ) ≤ 0 ∧ (freqInit tinyVocab tinyCorpus 0).isOk = false) :=
  ⟨⟨by norm_num, freq_init_failure_characterization.1 tinyVocab tinyCorpus 5 (by norm_num)⟩,
    ⟨le_rfl, freq_init_failure_characterization.2 tinyVocab tinyCorpus 0 le_rfl (by decide)⟩⟩

/-- C10.  `_move` never touches the raw word statistics: `word_counts`
and `ww_counts` are carried over unchanged (only the class tables and
the two membership maps are updated). -/
theorem move_leaves_word_statistics {V C : ℕ} (s : CountStore V C)
    (w : Fin V) (k : Fin C) :
    (move s w k).word_counts = s.word_counts ∧
    (move s w k).ww_counts = s.ww_counts :=
  ⟨rfl, rfl⟩

/-- C9.  Statistics of the concrete corpus `["a b a", "b a b"]` with
`num_classes = 1`: the vocabulary set is `{<s>, </s>, <UNK>, a, b}`,
there are 4 classes in all, `word_counts[a] = word_counts[b] = 3`, and
`ww_counts[<s>, a] = 1`.  Stated for every id order whose underlying
set is the constructed vocabulary (the source enumerates a Python set,
whose order is implementation-defined). -/
theorem tiny_corpus_construction_statistics (vocab : List String)
    (hset : vocab.toFinset = vocabSetOf tinyCorpus) :
    vocabSetOf tinyCorpus = {"<s>", "</s>", "<UNK>", "a", "b"} ∧
    numClassesTotal 1 = 4 ∧
    wordCountOfTok vocab tinyCorpus "a" = 3 ∧
    wordCountOfTok vocab tinyCorpus "b" = 3 ∧
    wwCountOfToks vocab tinyCorpus "<s>" "a" = 1 := by
  have hs : "<s>" ∈ vocab := by rw [← List.mem_toFinset, hset]; decide
  have he : "</s>" ∈ vocab := by rw [← List.mem_toFinset, hset]; decide
  have ha : "a" ∈ vocab := by rw [← List.mem_toFinset, hset]; decide
  have hb : "b" ∈ vocab := by rw [← List.mem_toFinset, hset]; decide
  have nsa : wordId vocab "<s>" ≠ wordId vocab "a" := wordId_ne vocab hs ha (by decide)
  have nsb : wordId vocab "<s>" ≠ wordId vocab "b" := wordId_ne vocab hs hb (by decide)
  have nea : wordId vocab "</s>" ≠ wordId vocab "a" := wordId_ne vocab he ha (by decide)
  have neb : wordId vocab "</s>" ≠ wordId vocab "b" := wordId_ne vocab he hb (by decide)
  have nab : wordId vocab "a" ≠ wordId vocab "b" := wordId_ne vocab ha hb (by decide)
  have nba : wordId vocab "b" ≠ wordId vocab "a" := nab.symm
  have nas : wordId vocab "a" ≠ wordId vocab "<s>" := nsa.symm
  have nbs : wordId vocab "b" ≠ wordId vocab "<s>" := nsb.symm
  have nae : wordId vocab "a" ≠ wordId vocab "</s>" := nea.symm
  have nbe : wordId vocab "b" ≠ wordId vocab "</s>" := neb.symm
  have nse : wordId vocab "<s>" ≠ wordId vocab "</s>" := wordId_ne vocab hs he (by decide)
  have nes : wordId vocab "</s>" ≠ wordId vocab "<s>" := nse.symm
  have hsent1 : mkSentence vocab ["a", "b", "a"]
      = [wordId vocab "<s>", wordId vocab "a", wordId vocab "b", wordId vocab "a",
          wordId vocab "</s>"] := by
    simp [mkSentence, ha, hb]
  have hsent2 : mkSentence vocab ["b", "a", "b"]
      = [wordId vocab "<s>", wordId vocab "b", wordId vocab "a", wordId vocab "b",
          wordId vocab "</s>"] := by
    simp [mkSentence, ha, hb]
  have htok : corpusTokens vocab tinyCorpus
      = [wordId vocab "<s>", wordId vocab "a", wordId vocab "b", wordId vocab "a",
          wordId vocab "</s>", wordId vocab "<s>", wordId vocab "b", wordId vocab "a",
          wordId vocab "b", wordId vocab "</s>"] := by
    simp [corpusTokens, tinyCorpus, hsent1, hsent2]
  have hpairs : corpusPairs vocab tinyCorpus
      = [(wordId vocab "<s>", wordId vocab "a"), (wordId vocab "a", wordId vocab "b"),
          (wordId vocab "b", wordId vocab "a"), (wordId vocab "a", wordId vocab "</s>"),
          (wordId vocab "<s>", wordId vocab "b"), (wordId vocab "b", wordId vocab "a"),
          (wordId vocab "a", wordId vocab "b"), (wordId vocab "b", wordId vocab "</s>")] := by
    simp [corpusPairs, tinyCorpus, hsent1, hsent2]
  refine ⟨by decide, by decide, ?_, ?_, ?_⟩
  · rw [wordCountOfTok, htok]
    simp [List.count_cons, nsa, nba, nea]
  · rw [wordCountOfTok, htok]
    simp [List.count_cons, nsb, nab, neb]
  · rw [wwCountOfToks, hpairs]
    simp [List.count_cons, Prod.ext_iff, nas, nba, nbs, nab]

theorem tiny_corpus_construction_statistics_witness :
    tinyVocab.toFinset = vocabSetOf tinyCorpus ∧
    (vocabSetOf tinyCorpus = {"<s>", "</s>", "<UNK>", "a", "b"} ∧
      numClassesTotal 1 = 4 ∧
      wordCountOfTok tinyVocab tinyCorpus "a" = 3 ∧
      wordCountOfTok tinyVocab tinyCorpus "b" = 3 ∧
      wwCountOfToks tinyVocab tinyCorpus "<s>" "a" = 1) :=
  ⟨by decide, tiny_corpus_construction_statistics tinyVocab (by decide)⟩

end WordClasses
